import Mathlib

/-!
Verification development for the crud_in_txt book-catalog service.

The Go sources (main.go and server.go, two near-identical copies of the same
program, plus a small test client) are embedded shallowly:

* Go strings are modelled as their character sequences (`Str := List Char`);
  Go `len` on strings is the UTF-8 byte length, modelled by `utf8Len`.
* The catalog file is modelled as `Option (List Str)`: `none` is an absent
  file, otherwise the list of lines of the file (the program always writes
  newline-terminated lines, so the line model is exact).
* The anchored regular expressions of `regexSchema` are plain character-class
  and shape checks, translated pattern by pattern.
* `strconv.Atoi` is modelled without the 64-bit range check (overflow of ids
  does not matter to any property considered here), and
  `strconv.ParseFloat` on `\d+(\.\d+)?` strings is modelled by exact decimal
  comparison against 0 and 1000.
* Fallible operations return `Except`/result inductives mirroring each
  return branch of the Go functions.
-/

abbrev Str := List Char

instance exceptDecEq {ε α : Type} [DecidableEq ε] [DecidableEq α] :
    DecidableEq (Except ε α)
  | .ok a, .ok b => decidable_of_iff (a = b) (by simp)
  | .error e, .error f => decidable_of_iff (e = f) (by simp)
  | .ok _, .error _ => isFalse (by simp)
  | .error _, .ok _ => isFalse (by simp)

def isDigitCh (c : Char) : Bool := 48 ≤ c.toNat && c.toNat ≤ 57

/-- Characters of the Go regexp class `\s` (space, tab, newline, form feed,
carriage return). -/
def isGoWS (c : Char) : Bool :=
  c.toNat = 32 || c.toNat = 9 || c.toNat = 10 || c.toNat = 12 || c.toNat = 13

/-- Go `unicode.IsSpace`: the Latin-1 white space characters together with the
Unicode space separators (used by `strings.TrimSpace`). -/
def isUniSpace (c : Char) : Bool :=
  (9 ≤ c.toNat && c.toNat ≤ 13) || c.toNat = 32 || c.toNat = 0x85 ||
  c.toNat = 0xa0 || c.toNat = 0x1680 ||
  (0x2000 ≤ c.toNat && c.toNat ≤ 0x200a) ||
  c.toNat = 0x2028 || c.toNat = 0x2029 || c.toNat = 0x202f ||
  c.toNat = 0x205f || c.toNat = 0x3000

/-- `strings.TrimSpace`, left half. -/
def trimL (s : Str) : Str := s.dropWhile isUniSpace

/-- `strings.TrimSpace`. -/
def trim (s : Str) : Str := ((trimL s).reverse.dropWhile isUniSpace).reverse

/-- `strings.Contains s pat` (substring containment). -/
def hasInfix : Str → Str → Bool
  | [], pat => pat.isPrefixOf ([] : Str)
  | c :: rest, pat => pat.isPrefixOf (c :: rest) || hasInfix rest pat

/-- `strings.Split` on a one-character separator. -/
def splitOnChar (sep : Char) : Str → List Str
  | [] => [[]]
  | c :: rest =>
    match splitOnChar sep rest with
    | [] => [[c]]
    | h :: t => if c = sep then [] :: h :: t else (c :: h) :: t

def splitPipe : Str → List Str := splitOnChar '|'

def splitNL : Str → List Str := splitOnChar '\n'

/-- `bufio.ScanLines` drops one carriage return at the end of each line. -/
def dropCR (s : Str) : Str :=
  if s.getLast? = some '\r' then s.dropLast else s

/-- `strings.ToLower`, restricted to the alphabets admitted by the validators
(ASCII and the Russian alphabet). -/
def lowerChar (c : Char) : Char :=
  if 65 ≤ c.toNat && c.toNat ≤ 90 then Char.ofNat (c.toNat + 32)
  else if 0x410 ≤ c.toNat && c.toNat ≤ 0x42f then Char.ofNat (c.toNat + 32)
  else if c.toNat = 0x401 then Char.ofNat 0x451 else c

def lowerStr (s : Str) : Str := s.map lowerChar

def str (s : String) : Str := s.data

/-- UTF-8 byte size of one character; Go `len` of a string sums these. -/
def utf8Sz (c : Char) : Nat :=
  if c.toNat < 0x80 then 1
  else if c.toNat < 0x800 then 2
  else if c.toNat < 0x10000 then 3
  else 4

def utf8Len (s : Str) : Nat := s.foldr (fun c a => utf8Sz c + a) 0

def digitsToNat (s : Str) : Nat := s.foldl (fun a c => a * 10 + (c.toNat - 48)) 0

/-- `strconv.Atoi`: optional sign followed by at least one digit.  The 64-bit
range check of Go is not modelled (no property here depends on overflow). -/
def goAtoi (s : Str) : Option Int :=
  match s with
  | [] => none
  | c :: rest =>
    if c = '+' then
      if !rest.isEmpty && rest.all isDigitCh then some (digitsToNat rest) else none
    else if c = '-' then
      if !rest.isEmpty && rest.all isDigitCh then some (-(digitsToNat rest : Int)) else none
    else if (c :: rest).all isDigitCh then some (digitsToNat (c :: rest)) else none

def digitChar (n : Nat) : Char := Char.ofNat (48 + n)

def natToStrAux : Nat → Nat → Str → Str
  | 0, _, acc => acc
  | fuel + 1, n, acc =>
    if n < 10 then digitChar n :: acc
    else natToStrAux fuel (n / 10) (digitChar (n % 10) :: acc)

/-- Decimal rendering of a natural number (`strconv.Itoa` on nonnegatives). -/
def natToStr (n : Nat) : Str := natToStrAux (n + 1) n []

/-- `strconv.Itoa`. -/
def intToStr (i : Int) : Str :=
  if i < 0 then '-' :: natToStr i.natAbs else natToStr i.natAbs

/- Character classes of `regexSchema`. -/

def isCyr (c : Char) : Bool :=
  (0x410 ≤ c.toNat && c.toNat ≤ 0x44f) || c.toNat = 0x401 || c.toNat = 0x451

def isLatin (c : Char) : Bool :=
  (65 ≤ c.toNat && c.toNat ≤ 90) || (97 ≤ c.toNat && c.toNat ≤ 122)

/-- Class of main.go's `name` pattern `[А-Яа-яЁёA-Za-z0-9\s,]`
(note: it contains the comma). -/
def mainNameCh (c : Char) : Bool :=
  isCyr c || isLatin c || isDigitCh c || isGoWS c || c.toNat = 44

/-- Class of server.go's `name` pattern `[А-Яа-яЁёA-Za-z0-9\s]` (no comma). -/
def serverNameCh (c : Char) : Bool :=
  isCyr c || isLatin c || isDigitCh c || isGoWS c

/-- Class of the `authors`/`genres` patterns `[А-Яа-яЁёA-Za-z\s,]`. -/
def authorsCh (c : Char) : Bool :=
  isCyr c || isLatin c || isGoWS c || c.toNat = 44

/-- Class of the rating-comment pattern `[А-Яа-яЁёA-Za-z0-9\s\,\.\!\?]`. -/
def ratingCh (c : Char) : Bool :=
  isCyr c || isLatin c || isDigitCh c || isGoWS c ||
  c.toNat = 44 || c.toNat = 46 || c.toNat = 33 || c.toNat = 63

/-- Anchored match of a character class repeated between `lo` and `hi` times. -/
def matchClass (cls : Char → Bool) (lo hi : Nat) (s : Str) : Bool :=
  lo ≤ s.length && s.length ≤ hi && s.all cls

/-- `^\d{4}$`. -/
def matchYear (s : Str) : Bool := s.length = 4 && s.all isDigitCh

/-- `^\d{2}-\d{2}-\d{4}$`. -/
def matchDate (s : Str) : Bool :=
  match s with
  | [a, b, '-', c, d, '-', e, f, g, h] =>
    isDigitCh a && isDigitCh b && isDigitCh c && isDigitCh d &&
    isDigitCh e && isDigitCh f && isDigitCh g && isDigitCh h
  | _ => false

/-- `^\d+(\.\d+)?$`. -/
def decShape (s : Str) : Bool :=
  match splitOnChar '.' s with
  | [a] => !a.isEmpty && a.all isDigitCh
  | [a, b] => !a.isEmpty && a.all isDigitCh && !b.isEmpty && b.all isDigitCh
  | _ => false

/-- The exact decimal value of a `decShape` string is greater than 1000. -/
def decGt1000 (s : Str) : Bool :=
  match splitOnChar '.' s with
  | [a] => 1000 < digitsToNat a
  | [a, b] => 1000 < digitsToNat a || (digitsToNat a = 1000 && b.any (· ≠ '0'))
  | _ => false

/-- The exact decimal value of a `decShape` string is less than or equal to 0. -/
def decLeZero (s : Str) : Bool :=
  match splitOnChar '.' s with
  | [a] => digitsToNat a = 0
  | [a, b] => digitsToNat a = 0 && b.all (· = '0')
  | _ => false

/-- Comment part of the rating pattern: 1 to 200 characters of `ratingCh`. -/
def commentOk (s : Str) : Bool :=
  1 ≤ s.length && s.length ≤ 200 && s.all ratingCh

/-- `^([1-9]|10)/10 - [class]{1,200}$`. -/
def matchRating (s : Str) : Bool :=
  if (str "10/10 - ").isPrefixOf s then commentOk (s.drop 8)
  else
    match s with
    | c :: rest => (49 ≤ c.toNat && c.toNat ≤ 57) && (str "/10 - ").isPrefixOf rest &&
        commentOk (rest.drop 6)
    | [] => false

/- Dates: `time.Parse("02-01-2006", _)` accepts DD-MM-YYYY with a valid
calendar day; comparisons of the parsed midnight instants are lexicographic
on (year, month, day). -/

structure GoDate where
  y : Nat
  m : Nat
  d : Nat
deriving DecidableEq

def isLeap (y : Nat) : Bool := y % 4 = 0 && (y % 100 ≠ 0 || y % 400 = 0)

def daysIn (y m : Nat) : Nat :=
  if m = 2 then (if isLeap y then 29 else 28)
  else if m = 4 || m = 6 || m = 9 || m = 11 then 30
  else 31

def digitVal (c : Char) : Nat := c.toNat - 48

def parseDate (s : Str) : Option GoDate :=
  match s with
  | [a, b, '-', c, d, '-', e, f, g, h] =>
    if isDigitCh a && isDigitCh b && isDigitCh c && isDigitCh d &&
       isDigitCh e && isDigitCh f && isDigitCh g && isDigitCh h then
      let dd := digitVal a * 10 + digitVal b
      let mm := digitVal c * 10 + digitVal d
      let yy := digitVal e * 1000 + digitVal f * 100 + digitVal g * 10 + digitVal h
      if 1 ≤ mm && mm ≤ 12 && 1 ≤ dd && dd ≤ daysIn yy mm then
        some ⟨yy, mm, dd⟩
      else none
    else none
  | _ => none

def dateLt (a b : GoDate) : Bool :=
  a.y < b.y || (a.y = b.y && (a.m < b.m || (a.m = b.m && a.d < b.d)))

/- Validators (main.go lines 32-207; server.go is identical except for
the `name` pattern). -/

/-- `normalizeCommas` state: scanning normally, buffering a whitespace run, or
dropping the whitespace that follows a replaced comma. -/
inductive NormSt where
  | a
  | w (buf : Str)
  | drop

/-- Core of `normalizeCommas`: Go's `regexp.MustCompile("\\s*,\\s*")
.ReplaceAllString(input, ",")`, i.e. every leftmost match of whitespace
around a comma is replaced by a bare comma. -/
def goNorm : NormSt → Str → Str
  | st, [] =>
    match st with
    | .w buf => buf.reverse
    | _ => []
  | st, c :: rest =>
    match st with
    | .a =>
      if c = ',' then ',' :: goNorm .drop rest
      else if isGoWS c then goNorm (.w [c]) rest
      else c :: goNorm .a rest
    | .w buf =>
      if c = ',' then ',' :: goNorm .drop rest
      else if isGoWS c then goNorm (.w (c :: buf)) rest
      else buf.reverse ++ c :: goNorm .a rest
    | .drop =>
      if isGoWS c then goNorm .drop rest
      else if c = ',' then ',' :: goNorm .drop rest
      else c :: goNorm .a rest

def normalizeCommas (s : Str) : Str := goNorm .a s

/-- main.go `ValidateName` (its `name` class admits the comma). -/
def mainValidateName (name : Str) : Except String Unit :=
  if hasInfix name (str "  ") then
    .error "название не должно содержать двойных пробелов"
  else if !matchClass mainNameCh 1 100 name then
    .error "название может содержать только буквы, цифры и пробелы"
  else if utf8Len name < 1 || utf8Len name > 100 then
    .error "название должно быть от 1 до 100 символов"
  else .ok ()

/-- server.go `ValidateName` (its `name` class has no comma). -/
def serverValidateName (name : Str) : Except String Unit :=
  if hasInfix name (str "  ") then
    .error "название не должно содержать двойных пробелов"
  else if !matchClass serverNameCh 1 100 name then
    .error "название может содержать только буквы, цифры и пробелы"
  else if utf8Len name < 1 || utf8Len name > 100 then
    .error "название должно быть от 1 до 100 символов"
  else .ok ()

def ValidateAuthors (authors : Str) : Except String Str :=
  if hasInfix (normalizeCommas authors) (str "  ") ||
     hasInfix (normalizeCommas authors) (str ",,") then
    .error "авторы не должны содержать двойных пробелов или запятых"
  else if !matchClass authorsCh 1 130 (normalizeCommas authors) then
    .error "авторы могут содержать только буквы, пробелы и запятые"
  else .ok (normalizeCommas authors)

def ValidateGenres (genres : Str) : Except String Str :=
  if hasInfix (normalizeCommas genres) (str "  ") ||
     hasInfix (normalizeCommas genres) (str ",,") then
    .error "жанры не должны содержать двойных пробелов или запятых"
  else if !matchClass authorsCh 1 100 (normalizeCommas genres) then
    .error "жанры могут содержать только буквы, пробелы и запятые"
  else .ok (normalizeCommas genres)

/-- `ValidateYear`; `time.Now().Year()` is the parameter `curYear`. -/
def ValidateYear (curYear : Int) (year : Str) : Except String Unit :=
  if !matchYear year then .error "неверный формат для поля year"
  else
    match goAtoi year with
    | none => .error "ошибка преобразования"
    | some y =>
      if y > curYear then .error "год не может быть больше текущего"
      else if y < 1500 then .error "год не может быть меньше 1500"
      else .ok ()

/-- `ValidateHeightWidth` (the axis parameter only selects the message). -/
def ValidateHeightWidth (value : Str) (axis : String) : Except String Unit :=
  if !decShape value then .error ("неверный формат для поля " ++ axis)
  else if decGt1000 value then .error (axis ++ " обложка не может быть больше метра")
  else if decLeZero value then .error (axis ++ " обложка может быть только положительной")
  else .ok ()

/-- `ValidateAdded`; the date part of `time.Now()` is the parameter `today`. -/
def ValidateAdded (today : GoDate) (added year : Str) : Except String Unit :=
  if !matchDate added then .error "неверный формат для поля added"
  else
    match parseDate added with
    | none => .error "ошибка разбора даты"
    | some ad =>
      match goAtoi year with
      | none => .error "ошибка преобразования года"
      | some yi =>
        if dateLt today ad then .error "дата добавления не может быть в будущем"
        else if (ad.y : Int) < yi then
          .error "дата добавления не может быть раньше даты издания"
        else .ok ()

def ValidateRead (rd added : Str) : Except String Unit :=
  if rd = [] then .ok ()
  else if !matchDate rd then .error "неверный формат для поля read"
  else
    match parseDate rd with
    | none => .error "ошибка разбора даты"
    | some rdd =>
      match parseDate added with
      | none => .error "ошибка разбора даты добавления"
      | some ad =>
        if dateLt rdd ad then .error "дата чтения не может быть до даты добавления"
        else .ok ()

def ValidateRating (rating : Str) : Except String Unit :=
  if rating = [] then .ok ()
  else if !matchRating rating then
    .error "рейтинг должен быть в формате X/10 - комментарий"
  else .ok ()

def ValidateCover (bookType : Str) : Except String Unit :=
  if bookType = str "мягкий" || bookType = str "твердый" then .ok ()
  else .error "тип обложки должен быть мягкий или твердый"

def ValidateSource (source : Str) : Except String Unit :=
  if source = str "покупка" || source = str "подарок" || source = str "наследство" then .ok ()
  else .error "источник должен быть покупка, подарок или наследство"

/- Record store (main.go lines 209-475, 654-943; server.go is identical up
to the concurrency token, which is modelled separately by event traces). -/

structure Book where
  id : Str
  name : Str
  authors : Str
  genres : Str
  year : Str
  width : Str
  height : Str
  cover : Str
  source : Str
  added : Str
  read : Str
  rating : Str
deriving DecidableEq

/-- Join fields with the pipe delimiter (the format string of
`appendBookToFile`, `modifyBooksFile` and `Update`). -/
def joinPipe : List Str → Str
  | [] => []
  | [f] => f
  | f :: g :: rest => f ++ '|' :: joinPipe (g :: rest)

/-- The 12 fields of a record in file order
`id|name|year|authors|genres|width|height|cover|source|added|read|rating`. -/
def bookFields (b : Book) : List Str :=
  [b.id, b.name, b.year, b.authors, b.genres, b.width, b.height,
   b.cover, b.source, b.added, b.read, b.rating]

/-- The serialized line of a record: the 12 fields joined by the pipe. -/
def bookLine (b : Book) : Str := joinPipe (bookFields b)

/-- `lineToDict`: trim the line, split on the pipe, fail on fewer than 12
parts (12 or more are accepted, parts beyond the 12th are ignored). -/
def lineToDict (line : Str) : Except String Book :=
  let parts := splitPipe (trim line)
  if parts.length < 12 then
    .error "недостаточно частей в строке"
  else
    .ok
      { id := parts.getD 0 [], name := parts.getD 1 [], year := parts.getD 2 [],
        authors := parts.getD 3 [], genres := parts.getD 4 [],
        width := parts.getD 5 [], height := parts.getD 6 [],
        cover := parts.getD 7 [], source := parts.getD 8 [],
        added := parts.getD 9 [], read := parts.getD 10 [],
        rating := parts.getD 11 [] }

/-- The catalog file: absent, or a list of lines. -/
abbrev FileState := Option (List Str)

/-- The last line that is non-empty after trimming, kept in trimmed form
(the scanning loop of `getNextID`). -/
def lastNonBlankAux (acc : Str) : List Str → Str
  | [] => acc
  | l :: rest => lastNonBlankAux (if trim l ≠ [] then trim l else acc) rest

def getNextID (f : FileState) : Except String Int :=
  match f with
  | none => .ok 1
  | some lines =>
    if lastNonBlankAux [] lines = [] then .ok 1
    else
      match lineToDict (lastNonBlankAux [] lines) with
      | .error e => .error e
      | .ok bk =>
        match goAtoi bk.id with
        | none => .error "неверный формат ID"
        | some id => .ok (id + 1)

def isUniqueAux (b : Book) : List Str → Except String Bool
  | [] => .ok true
  | l :: rest =>
    if trim l = [] then isUniqueAux b rest
    else
      match lineToDict l with
      | .error e => .error e
      | .ok ex =>
        if ex.name = b.name && ex.authors = b.authors then .ok false
        else isUniqueAux b rest

def isUniqueBook (b : Book) (f : FileState) : Except String Bool :=
  match f with
  | none => .ok true
  | some lines => isUniqueAux b lines

/-- The lines produced by writing the string `s ++ "\n"` to the
newline-terminated file (a newline inside a field splits the record). -/
def goLinesOf (s : Str) : List Str := splitNL s

/-- `appendBookToFile` (open-append-or-create). -/
def appendBookToFile (b : Book) (f : FileState) : FileState :=
  match f with
  | none => some (goLinesOf (bookLine b))
  | some lines => some (lines ++ goLinesOf (bookLine b))

def readLines : List Str → Except String (List Book)
  | [] => .ok []
  | l :: rest =>
    if trim l = [] then readLines rest
    else
      match lineToDict l with
      | .error e => .error e
      | .ok b =>
        match readLines rest with
        | .error e => .error e
        | .ok bs => .ok (b :: bs)

/-- `Read` (read-all): absent file is the empty table; a line with fewer than
12 fields aborts the whole read. -/
def ReadAll (f : FileState) : Except String (List Book) :=
  match f with
  | none => .ok []
  | some lines => readLines lines

/-- Field access of the parsed dictionary by external field name, including
the `cover`-to-`book_type` renaming done in `searchBooks`. -/
def dictGet (b : Book) (field : String) : Option Str :=
  if field = "id" then some b.id
  else if field = "name" then some b.name
  else if field = "year" then some b.year
  else if field = "authors" then some b.authors
  else if field = "genres" then some b.genres
  else if field = "width" then some b.width
  else if field = "height" then some b.height
  else if field = "book_type" then some b.cover
  else if field = "source" then some b.source
  else if field = "date_added" then some b.added
  else if field = "date_read" then some b.read
  else if field = "rating" then some b.rating
  else none

def searchAux (field : String) (value : Str) : List Str → Except String (List Book)
  | [] => .ok []
  | l :: rest =>
    if trim l = [] then searchAux field value rest
    else
      match lineToDict l with
      | .error e => .error e
      | .ok b =>
        let internalField := if field = "cover" then "book_type" else field
        match dictGet b internalField with
        | none => searchAux field value rest
        | some v =>
          if field = "id" then
            if v = value then .ok [b] else searchAux field value rest
          else if field = "year" || field = "width" || field = "height" then
            if v = value then
              match searchAux field value rest with
              | .error e => .error e
              | .ok bs => .ok (b :: bs)
            else searchAux field value rest
          else
            if hasInfix (lowerStr v) (lowerStr value) then
              match searchAux field value rest with
              | .error e => .error e
              | .ok bs => .ok (b :: bs)
            else searchAux field value rest

/-- `searchBooks`: id comparisons short-circuit on the first hit; year, width
and height compare exactly; the rest case-insensitively by containment. -/
def searchBooks (field : String) (value : Str) (f : FileState) : Except String (List Book) :=
  match f with
  | none => .ok []
  | some lines => searchAux field value lines

/-- Go map assignment in a loop: the last candidate with a given id wins. -/
def lookupLast (cs : List Book) (id : Str) : Option Book :=
  cs.foldl (fun acc c => if c.id = id then some c else acc) none

inductive ModRes where
  | openErr
  | parseErr
  | notFound
  | done
deriving DecidableEq

/-- One pass of `modifyBooksFile`'s scan: returns whether a target id was
found and the lines written to the temporary file.  Lines are parsed raw
(no blank-line skipping), matched lines are replaced (update) or dropped
(delete), all other lines are copied as the scanner produced them. -/
def modifyAux (cs : List Book) (upd : Bool) : List Str → Except String (Bool × List Str)
  | [] => .ok (false, [])
  | l :: rest =>
    match lineToDict (dropCR l) with
    | .error e => .error e
    | .ok bk =>
      match modifyAux cs upd rest with
      | .error e => .error e
      | .ok (found, out) =>
        match lookupLast cs bk.id with
        | some nb =>
          if upd then .ok (true, goLinesOf (bookLine nb) ++ out)
          else .ok (true, out)
        | none => .ok (found, dropCR l :: out)

/-- `modifyBooksFile`: stream the file into a temporary file, then either
discard it (nothing found, or a parse error aborts) or atomically replace
the original. -/
def modifyBooksFile (cs : List Book) (upd : Bool) (f : FileState) : ModRes × FileState :=
  match f with
  | none => (.openErr, none)
  | some lines =>
    match modifyAux cs upd lines with
    | .error _ => (.parseErr, some lines)
    | .ok (false, _) => (.notFound, some lines)
    | .ok (true, out) => (.done, some out)

inductive CreateRes where
  | idErr
  | uniqueErr
  | dup
  | created (n : Int)
deriving DecidableEq

/-- `Create`: assign the next id, reject a duplicate (name, authors) pair,
otherwise append the serialized line. -/
def Create (b : Book) (f : FileState) : CreateRes × FileState :=
  match getNextID f with
  | .error _ => (.idErr, f)
  | .ok n =>
    let b2 := { b with id := intToStr n }
    match isUniqueBook b2 f with
    | .error _ => (.uniqueErr, f)
    | .ok false => (.dup, f)
    | .ok true => (.created n, appendBookToFile b2 f)

inductive UpdateRes where
  | readErr
  | notFound
  | updated
deriving DecidableEq

/-- Replace the first record whose id matches (the loop of `Update` breaks
after the first hit). -/
def replaceFirst (b : Book) : List Book → Option (List Book)
  | [] => none
  | x :: rest =>
    if x.id = b.id then some (b :: rest)
    else
      match replaceFirst b rest with
      | none => none
      | some rest2 => some (x :: rest2)

/-- `Update` (full-table variant): read the whole table, replace the matching
record in memory, serialize every record back through the temporary file. -/
def Update (b : Book) (f : FileState) : UpdateRes × FileState :=
  match ReadAll f with
  | .error _ => (.readErr, f)
  | .ok books =>
    match replaceFirst b books with
    | none => (.notFound, f)
    | some books2 =>
      (.updated, some (books2.foldr (fun bk acc => goLinesOf (bookLine bk) ++ acc) []))

example : ValidateAuthors (str "Ivanov ,  Petrov") = .ok (str "Ivanov,Petrov") := by decide

example : mainValidateName (str "a,b") = .ok () := by decide

example : serverValidateName (str "a,b") ≠ .ok () := by decide

example : ValidateRating (str "8/10 - Good book") = .ok () := by decide

example : ValidateRating (str "11/10 - test") ≠ .ok () := by decide

/- Well-formedness of a record with respect to the file format: no field
contains the delimiter or a line break, the id does not start with white
space and the rating does not end with it (so the serialized line is
trim-stable and parses back to the same record). -/

def goodFieldB (s : Str) : Bool :=
  s.all fun c => !(c.toNat = 124 || c.toNat = 10 || c.toNat = 13)

def headOkB (s : Str) : Bool :=
  match s.head? with
  | none => true
  | some c => !isUniSpace c

def lastOkB (s : Str) : Bool :=
  match s.getLast? with
  | none => true
  | some c => !isUniSpace c

def wfBook (b : Book) : Bool :=
  goodFieldB b.id && goodFieldB b.name && goodFieldB b.year &&
  goodFieldB b.authors && goodFieldB b.genres && goodFieldB b.width &&
  goodFieldB b.height && goodFieldB b.cover && goodFieldB b.source &&
  goodFieldB b.added && goodFieldB b.read && goodFieldB b.rating &&
  headOkB b.id && lastOkB b.rating

/- Concurrency guard model for main.go (claim C9): each mutating operation is
abstracted to the sequence of guard and file events it performs, in program
order.  main.go's `Create`, `Update` and `modifyBooksFile` send on the
capacity-one channel `token` first and release it in a deferred receive;
server.go's copies of the same functions perform no guard operation at all
(its `fileMutex` is declared but never locked). -/

inductive Ev where
  | acq
  | rel
  | fread
  | fwrite
deriving DecidableEq

/-- File events of the body of `Create`: `getNextID` scans the file, then
`isUniqueBook` scans it, then on success `appendBookToFile` writes it. -/
def createBody (b : Book) (f : FileState) : List Ev :=
  .fread ::
    match getNextID f with
    | .error _ => []
    | .ok n =>
      .fread ::
        match isUniqueBook { b with id := intToStr n } f with
        | .error _ => []
        | .ok false => []
        | .ok true => [.fwrite]

/-- File events of the body of `Update`: one full read, then on success the
temp-file rewrite and rename. -/
def updateBody (b : Book) (f : FileState) : List Ev :=
  .fread ::
    match ReadAll f with
    | .error _ => []
    | .ok books =>
      match replaceFirst b books with
      | none => []
      | some _ => [.fwrite]

/-- File events of the body of `modifyBooksFile`: the streaming scan, then on
success the rename over the original. -/
def modifyBody (cs : List Book) (upd : Bool) (f : FileState) : List Ev :=
  match f with
  | none => []
  | some lines =>
    .fread ::
      match modifyAux cs upd lines with
      | .error _ => []
      | .ok (false, _) => []
      | .ok (true, _) => [.fwrite]

def mainCreateTr (b : Book) (f : FileState) : List Ev :=
  .acq :: createBody b f ++ [.rel]

def mainUpdateTr (b : Book) (f : FileState) : List Ev :=
  .acq :: updateBody b f ++ [.rel]

def mainModifyTr (cs : List Book) (upd : Bool) (f : FileState) : List Ev :=
  .acq :: modifyBody cs upd f ++ [.rel]

def serverCreateTr (b : Book) (f : FileState) : List Ev :=
  createBody b f

def serverUpdateTr (b : Book) (f : FileState) : List Ev :=
  updateBody b f

def serverModifyTr (cs : List Book) (upd : Bool) (f : FileState) : List Ev :=
  modifyBody cs upd f

/-- A trace acquires the guard first, releases it at the very end, and does
neither in between: the guard is held across every file access. -/
def wellBracketed (t : List Ev) : Prop :=
  ∃ body, t = .acq :: body ++ [.rel] ∧ Ev.acq ∉ body ∧ Ev.rel ∉ body

/- Basic lemmas about the string model. -/

theorem char_toNat_inj {a b : Char} (h : a.toNat = b.toNat) : a = b :=
  Char.ext (UInt32.ext h)

theorem splitOnChar_ne_nil (sep : Char) (s : Str) : splitOnChar sep s ≠ [] := by
  cases s with
  | nil => simp [splitOnChar]
  | cons c rest =>
    show (match splitOnChar sep rest with
      | [] => [[c]]
      | h :: t => if c = sep then [] :: h :: t else (c :: h) :: t) ≠ []
    cases h : splitOnChar sep rest with
    | nil => simp
    | cons hd tl => by_cases hcs : c = sep <;> simp [hcs]

theorem splitOnChar_nosep {sep : Char} {s : Str} (h : sep ∉ s) : splitOnChar sep s = [s] := by
  induction s with
  | nil => rfl
  | cons c rest ih =>
    have hc : ¬(c = sep) := by
      rintro rfl
      exact h (List.mem_cons_self _ _)
    have hr : sep ∉ rest := fun m => h (List.mem_cons_of_mem _ m)
    simp [splitOnChar, ih hr, hc]

theorem splitOnChar_sep_append {sep : Char} {f r : Str} (h : sep ∉ f) :
    splitOnChar sep (f ++ sep :: r) = f :: splitOnChar sep r := by
  induction f with
  | nil =>
    show (match splitOnChar sep r with
      | [] => [[sep]]
      | h :: t => if sep = sep then [] :: h :: t else (sep :: h) :: t) =
      [] :: splitOnChar sep r
    cases hh : splitOnChar sep r with
    | nil => exact absurd hh (splitOnChar_ne_nil sep r)
    | cons a t => simp
  | cons c f2 ih =>
    have hc : ¬(c = sep) := by
      rintro rfl
      exact h (List.mem_cons_self _ _)
    have hf : sep ∉ f2 := fun m => h (List.mem_cons_of_mem _ m)
    show (match splitOnChar sep (f2 ++ sep :: r) with
      | [] => [[c]]
      | h :: t => if c = sep then [] :: h :: t else (c :: h) :: t) =
      (c :: f2) :: splitOnChar sep r
    rw [ih hf]
    simp [hc]

theorem trimL_eq_self {l : Str} (h : ∀ c, l.head? = some c → isUniSpace c = false) :
    trimL l = l := by
  cases l with
  | nil => rfl
  | cons c t => simp [trimL, List.dropWhile_cons, h c rfl]

theorem trim_eq_self {l : Str} (h1 : ∀ c, l.head? = some c → isUniSpace c = false)
    (h2 : ∀ c, l.getLast? = some c → isUniSpace c = false) : trim l = l := by
  unfold trim
  rw [trimL_eq_self h1]
  have hrev : l.reverse.dropWhile isUniSpace = l.reverse := by
    cases hr : l.reverse with
    | nil => rfl
    | cons c t =>
      have hc : l.getLast? = some c := by
        rw [← List.head?_reverse, hr]
        rfl
      simp [List.dropWhile_cons, h2 c hc]
  rw [hrev, List.reverse_reverse]

theorem trim_eq_nil_of_all_space {l : Str} (h : ∀ c ∈ l, isUniSpace c = true) :
    trim l = [] := by
  have h1 : trimL l = [] := by
    unfold trimL
    exact List.dropWhile_eq_nil_iff.mpr h
  unfold trim
  rw [h1]
  rfl

/- Decimal rendering and parsing round trip. -/

theorem digitChar_toNat {n : Nat} (h : n < 10) : (digitChar n).toNat = 48 + n := by
  interval_cases n <;> decide

theorem digitChar_isDigit {n : Nat} (h : n < 10) : isDigitCh (digitChar n) = true := by
  interval_cases n <;> decide

theorem natToStrAux_spec : ∀ fuel n acc, n < fuel →
    ∃ ds : Str, natToStrAux fuel n acc = ds ++ acc ∧ ds ≠ [] ∧
      (∀ c ∈ ds, isDigitCh c = true) ∧
      ∀ a : Nat, ds.foldl (fun x c => x * 10 + (c.toNat - 48)) a = a * 10 ^ ds.length + n := by
  intro fuel
  induction fuel with
  | zero => intro n acc h; omega
  | succ fuel ih =>
    intro n acc h
    by_cases h10 : n < 10
    · refine ⟨[digitChar n], by simp [natToStrAux, h10], by simp, ?_, ?_⟩
      · intro c hc
        rw [List.mem_singleton] at hc
        subst hc
        exact digitChar_isDigit h10
      · intro a
        simp only [List.foldl_cons, List.foldl_nil, List.length_singleton, pow_one,
          digitChar_toNat h10]
        omega
    · have hpos : 0 < n := by omega
      have hdiv : n / 10 < n := Nat.div_lt_self hpos (by omega)
      have hfuel : n / 10 < fuel := by omega
      obtain ⟨ds, heq, hne, hdig, hval⟩ := ih (n / 10) (digitChar (n % 10) :: acc) hfuel
      have hm10 : n % 10 < 10 := Nat.mod_lt _ (by omega)
      refine ⟨ds ++ [digitChar (n % 10)], ?_, by simp, ?_, ?_⟩
      · have hstep : natToStrAux (fuel + 1) n acc =
            natToStrAux fuel (n / 10) (digitChar (n % 10) :: acc) := by
          simp [natToStrAux, h10]
        rw [hstep, heq, List.append_assoc, List.singleton_append]
      · intro c hc
        rcases List.mem_append.mp hc with h1 | h2
        · exact hdig c h1
        · rw [List.mem_singleton] at h2
          subst h2
          exact digitChar_isDigit hm10
      · intro a
        rw [List.foldl_append, hval a]
        simp only [List.foldl_cons, List.foldl_nil, List.length_append,
          List.length_singleton, digitChar_toNat hm10]
        have h48 : 48 + n % 10 - 48 = n % 10 := by omega
        rw [h48]
        have hdm : 10 * (n / 10) + n % 10 = n := Nat.div_add_mod n 10
        calc (a * 10 ^ ds.length + n / 10) * 10 + n % 10
            = a * (10 ^ ds.length * 10) + (10 * (n / 10) + n % 10) := by ring
          _ = a * 10 ^ (ds.length + 1) + n := by rw [hdm, pow_succ]

theorem natToStr_spec (n : Nat) : natToStr n ≠ [] ∧
    (∀ c ∈ natToStr n, isDigitCh c = true) ∧ digitsToNat (natToStr n) = n := by
  obtain ⟨ds, heq, hne, hdig, hval⟩ := natToStrAux_spec (n + 1) n [] (by omega)
  have hds : natToStr n = ds := by
    unfold natToStr
    rw [heq, List.append_nil]
  rw [hds]
  refine ⟨hne, hdig, ?_⟩
  have := hval 0
  simpa [digitsToNat] using this

theorem goAtoi_digits {s : Str} (h1 : s ≠ []) (h2 : ∀ c ∈ s, isDigitCh c = true) :
    goAtoi s = some ((digitsToNat s : Int)) := by
  cases s with
  | nil => exact absurd rfl h1
  | cons c cs =>
    have hc := h2 c (List.mem_cons_self _ _)
    have hplus : ¬(c = '+') := by
      rintro rfl
      exact absurd hc (by decide)
    have hminus : ¬(c = '-') := by
      rintro rfl
      exact absurd hc (by decide)
    have hall : (c :: cs).all isDigitCh = true := List.all_eq_true.mpr h2
    simp [goAtoi, hplus, hminus, hall]

theorem goAtoi_intToStr (i : Int) : goAtoi (intToStr i) = some i := by
  obtain ⟨hne, hdig, hval⟩ := natToStr_spec i.natAbs
  by_cases hi : i < 0
  · have hrep : intToStr i = '-' :: natToStr i.natAbs := by simp [intToStr, hi]
    have hie : (natToStr i.natAbs).isEmpty = false := by
      cases h : natToStr i.natAbs with
      | nil => exact absurd h hne
      | cons a t => rfl
    have hall : (natToStr i.natAbs).all isDigitCh = true := List.all_eq_true.mpr hdig
    rw [hrep]
    have hstep : goAtoi ('-' :: natToStr i.natAbs) =
        some (-(digitsToNat (natToStr i.natAbs) : Int)) := by
      simp [goAtoi, hie, hall]
    rw [hstep, hval]
    have hcast : ((i.natAbs : Int)) = -i := Int.ofNat_natAbs_of_nonpos (le_of_lt hi)
    rw [hcast, neg_neg]
  · have hrep : intToStr i = natToStr i.natAbs := by simp [intToStr, hi]
    rw [hrep, goAtoi_digits hne hdig, hval]
    have hcast : ((i.natAbs : Int)) = i := Int.natAbs_of_nonneg (by omega)
    rw [hcast]


theorem intToStr_chars (i : Int) : ∀ c ∈ intToStr i, isDigitCh c = true ∨ c.toNat = 45 := by
  obtain ⟨hne, hdig, hval⟩ := natToStr_spec i.natAbs
  intro c hc
  by_cases hi : i < 0
  · rw [show intToStr i = '-' :: natToStr i.natAbs from by simp [intToStr, hi]] at hc
    rcases List.mem_cons.mp hc with h1 | h2
    · right
      rw [h1]
      decide
    · exact Or.inl (hdig c h2)
  · rw [show intToStr i = natToStr i.natAbs from by simp [intToStr, hi]] at hc
    exact Or.inl (hdig c hc)

theorem intToStr_ne_nil (i : Int) : intToStr i ≠ [] := by
  obtain ⟨hne, _, _⟩ := natToStr_spec i.natAbs
  by_cases hi : i < 0 <;> simp [intToStr, hi, hne]

/- Serialization round trip. -/

theorem splitPipe_joinPipe : ∀ {fs : List Str}, fs ≠ [] → (∀ f ∈ fs, '|' ∉ f) →
    splitOnChar '|' (joinPipe fs) = fs := by
  intro fs
  induction fs with
  | nil => intro hne; exact absurd rfl hne
  | cons f rest ih =>
    intro _ h
    cases rest with
    | nil => exact splitOnChar_nosep (h f (List.mem_cons_self _ _))
    | cons g rest2 =>
      show splitOnChar '|' (f ++ '|' :: joinPipe (g :: rest2)) = f :: g :: rest2
      rw [splitOnChar_sep_append (h f (List.mem_cons_self _ _))]
      rw [ih (by simp) (fun x hx => h x (List.mem_cons_of_mem _ hx))]

theorem pipe_not_mem_of_good {s : Str} (h : goodFieldB s = true) : '|' ∉ s := by
  intro hm
  have := List.all_eq_true.mp h _ hm
  exact absurd this (by decide)

theorem nl_not_mem_of_good {s : Str} (h : goodFieldB s = true) : '\n' ∉ s := by
  intro hm
  have := List.all_eq_true.mp h _ hm
  exact absurd this (by decide)

theorem cr_not_mem_of_good {s : Str} (h : goodFieldB s = true) : '\r' ∉ s := by
  intro hm
  have := List.all_eq_true.mp h _ hm
  exact absurd this (by decide)

theorem wfBook_fields {b : Book} (h : wfBook b = true) : ∀ f ∈ bookFields b, '|' ∉ f := by
  simp only [wfBook, Bool.and_eq_true] at h
  obtain ⟨⟨⟨⟨⟨⟨⟨⟨⟨⟨⟨⟨⟨h1, h2⟩, h3⟩, h4⟩, h5⟩, h6⟩, h7⟩, h8⟩, h9⟩, h10⟩, h11⟩, h12⟩, _⟩, _⟩ := h
  intro f hf
  simp only [bookFields, List.mem_cons, List.not_mem_nil, or_false] at hf
  rcases hf with rfl | rfl | rfl | rfl | rfl | rfl | rfl | rfl | rfl | rfl | rfl | rfl <;>
    first
      | exact pipe_not_mem_of_good h1
      | exact pipe_not_mem_of_good h2
      | exact pipe_not_mem_of_good h3
      | exact pipe_not_mem_of_good h4
      | exact pipe_not_mem_of_good h5
      | exact pipe_not_mem_of_good h6
      | exact pipe_not_mem_of_good h7
      | exact pipe_not_mem_of_good h8
      | exact pipe_not_mem_of_good h9
      | exact pipe_not_mem_of_good h10
      | exact pipe_not_mem_of_good h11
      | exact pipe_not_mem_of_good h12

theorem wfBook_nl {b : Book} (h : wfBook b = true) : ∀ f ∈ bookFields b, '\n' ∉ f := by
  simp only [wfBook, Bool.and_eq_true] at h
  obtain ⟨⟨⟨⟨⟨⟨⟨⟨⟨⟨⟨⟨⟨h1, h2⟩, h3⟩, h4⟩, h5⟩, h6⟩, h7⟩, h8⟩, h9⟩, h10⟩, h11⟩, h12⟩, _⟩, _⟩ := h
  intro f hf
  simp only [bookFields, List.mem_cons, List.not_mem_nil, or_false] at hf
  rcases hf with rfl | rfl | rfl | rfl | rfl | rfl | rfl | rfl | rfl | rfl | rfl | rfl <;>
    first
      | exact nl_not_mem_of_good h1
      | exact nl_not_mem_of_good h2
      | exact nl_not_mem_of_good h3
      | exact nl_not_mem_of_good h4
      | exact nl_not_mem_of_good h5
      | exact nl_not_mem_of_good h6
      | exact nl_not_mem_of_good h7
      | exact nl_not_mem_of_good h8
      | exact nl_not_mem_of_good h9
      | exact nl_not_mem_of_good h10
      | exact nl_not_mem_of_good h11
      | exact nl_not_mem_of_good h12

theorem nl_not_mem_joinPipe : ∀ {fs : List Str}, (∀ f ∈ fs, '\n' ∉ f) →
    '\n' ∉ joinPipe fs := by
  intro fs
  induction fs with
  | nil =>
    intro _ hm
    simp [joinPipe] at hm
  | cons f rest ih =>
    intro h hm
    cases rest with
    | nil => exact h f (List.mem_cons_self _ _) hm
    | cons g rest2 =>
      have hm2 : '\n' ∈ f ++ '|' :: joinPipe (g :: rest2) := hm
      rcases List.mem_append.mp hm2 with h1 | h2
      · exact h f (List.mem_cons_self _ _) h1
      · rcases List.mem_cons.mp h2 with h3 | h4
        · exact absurd h3 (by decide)
        · exact ih (fun x hx => h x (List.mem_cons_of_mem _ hx)) h4

/-- The serialized line decomposed around the last delimiter. -/
theorem bookLine_decomp (b : Book) : bookLine b =
    (b.id ++ '|' :: (b.name ++ '|' :: (b.year ++ '|' :: (b.authors ++ '|' ::
     (b.genres ++ '|' :: (b.width ++ '|' :: (b.height ++ '|' :: (b.cover ++ '|' ::
     (b.source ++ '|' :: (b.added ++ '|' :: b.read)))))))))) ++ '|' :: b.rating := by
  simp [bookLine, bookFields, joinPipe]

theorem bookLine_head {b : Book} (h : headOkB b.id = true) :
    ∀ c, (bookLine b).head? = some c → isUniSpace c = false := by
  intro c hc
  have hbl : bookLine b = b.id ++ '|' :: joinPipe [b.name, b.year, b.authors, b.genres,
      b.width, b.height, b.cover, b.source, b.added, b.read, b.rating] := rfl
  rw [hbl] at hc
  cases hid : b.id with
  | nil =>
    rw [hid] at hc
    simp only [List.nil_append, List.head?_cons, Option.some.injEq] at hc
    subst hc
    decide
  | cons a t =>
    rw [hid] at hc
    simp only [List.cons_append, List.head?_cons, Option.some.injEq] at hc
    subst hc
    unfold headOkB at h
    rw [hid] at h
    simpa using h

theorem bookLine_last {b : Book} (h : lastOkB b.rating = true) :
    ∀ c, (bookLine b).getLast? = some c → isUniSpace c = false := by
  intro c hc
  rw [bookLine_decomp b] at hc
  rw [List.getLast?_append_of_ne_nil _ (by simp : ('|' :: b.rating) ≠ [])] at hc
  cases hr : b.rating with
  | nil =>
    rw [hr] at hc
    simp only [List.getLast?_singleton, Option.some.injEq] at hc
    subst hc
    decide
  | cons a t =>
    rw [hr] at hc
    rw [List.getLast?_cons_cons] at hc
    unfold lastOkB at h
    rw [hr, hc] at h
    simpa using h

theorem trim_bookLine {b : Book} (h : wfBook b = true) : trim (bookLine b) = bookLine b := by
  simp only [wfBook, Bool.and_eq_true] at h
  obtain ⟨⟨hmost, hhead⟩, hlast⟩ := h
  apply trim_eq_self
  · exact bookLine_head hhead
  · exact bookLine_last hlast

theorem lineToDict_bookLine {b : Book} (h : wfBook b = true) :
    lineToDict (bookLine b) = .ok b := by
  unfold lineToDict
  rw [trim_bookLine h]
  have hsp : splitPipe (bookLine b) = bookFields b :=
    splitPipe_joinPipe (by simp [bookFields]) (wfBook_fields h)
  rw [hsp]
  simp [bookFields]

theorem goLinesOf_bookLine {b : Book} (h : wfBook b = true) :
    goLinesOf (bookLine b) = [bookLine b] := by
  unfold goLinesOf splitNL
  exact splitOnChar_nosep (nl_not_mem_joinPipe (wfBook_nl h))

/- Scan-level equation lemmas: one rewriting equation per branch of each
scanning loop, then the structural lemmas on top of them. -/

theorem readLines_cons_blank {l : Str} {rest : List Str} (hb : trim l = []) :
    readLines (l :: rest) = readLines rest := by
  conv_lhs => unfold readLines
  rw [if_pos hb]

theorem readLines_cons_bad {l : Str} {rest : List Str} {e : String}
    (hb : trim l ≠ []) (hd : lineToDict l = .error e) :
    readLines (l :: rest) = .error e := by
  conv_lhs => unfold readLines
  rw [if_neg hb, hd]

theorem readLines_cons_ok {l : Str} {rest : List Str} {b : Book}
    (hb : trim l ≠ []) (hd : lineToDict l = .ok b) :
    readLines (l :: rest) =
      match readLines rest with
      | .error e => .error e
      | .ok bs => .ok (b :: bs) := by
  conv_lhs => unfold readLines
  rw [if_neg hb, hd]

theorem isUniqueAux_cons_blank {b : Book} {l : Str} {rest : List Str} (hb : trim l = []) :
    isUniqueAux b (l :: rest) = isUniqueAux b rest := by
  conv_lhs => unfold isUniqueAux
  rw [if_pos hb]

theorem isUniqueAux_cons_bad {b : Book} {l : Str} {rest : List Str} {e : String}
    (hb : trim l ≠ []) (hd : lineToDict l = .error e) :
    isUniqueAux b (l :: rest) = .error e := by
  conv_lhs => unfold isUniqueAux
  rw [if_neg hb, hd]

theorem isUniqueAux_cons_match {b : Book} {l : Str} {rest : List Str} {bk : Book}
    (hb : trim l ≠ []) (hd : lineToDict l = .ok bk)
    (hm : bk.name = b.name ∧ bk.authors = b.authors) :
    isUniqueAux b (l :: rest) = .ok false := by
  conv_lhs => unfold isUniqueAux
  rw [if_neg hb, hd]
  simp [hm.1, hm.2]

theorem isUniqueAux_cons_nomatch {b : Book} {l : Str} {rest : List Str} {bk : Book}
    (hb : trim l ≠ []) (hd : lineToDict l = .ok bk)
    (hm : ¬(bk.name = b.name ∧ bk.authors = b.authors)) :
    isUniqueAux b (l :: rest) = isUniqueAux b rest := by
  conv_lhs => unfold isUniqueAux
  rw [if_neg hb, hd]
  have hc : (decide (bk.name = b.name) && decide (bk.authors = b.authors)) = false := by
    rcases not_and_or.mp hm with h1 | h1 <;> simp [h1]
  simp [hc]

theorem readLines_append (xs ys : List Str) :
    readLines (xs ++ ys) =
      match readLines xs, readLines ys with
      | .error e, _ => .error e
      | .ok _, .error e => .error e
      | .ok bs, .ok cs => .ok (bs ++ cs) := by
  induction xs with
  | nil =>
    cases h : readLines ys <;> simp [readLines, h]
  | cons l rest ih =>
    show readLines (l :: (rest ++ ys)) = _
    by_cases hb : trim l = []
    · rw [readLines_cons_blank hb, readLines_cons_blank hb, ih]
    · cases hd : lineToDict l with
      | error e =>
        rw [readLines_cons_bad hb hd, readLines_cons_bad hb hd]
      | ok b =>
        rw [readLines_cons_ok hb hd, readLines_cons_ok hb hd, ih]
        cases readLines rest <;> cases readLines ys <;> simp

theorem readLines_error {lines : List Str}
    (h : ∃ l ∈ lines, trim l ≠ [] ∧ (splitPipe (trim l)).length < 12) :
    ∃ e, readLines lines = .error e := by
  induction lines with
  | nil => simp at h
  | cons l rest ih =>
    rcases h with ⟨x, hx, hxt, hxp⟩
    rcases List.mem_cons.mp hx with rfl | hmem
    · have hd : lineToDict x = .error "недостаточно частей в строке" := by
        unfold lineToDict
        rw [if_pos hxp]
      exact ⟨_, readLines_cons_bad hxt hd⟩
    · by_cases hb : trim l = []
      · obtain ⟨e, he⟩ := ih ⟨x, hmem, hxt, hxp⟩
        exact ⟨e, by rw [readLines_cons_blank hb, he]⟩
      · cases hd : lineToDict l with
        | error e => exact ⟨e, readLines_cons_bad hb hd⟩
        | ok b =>
          obtain ⟨e, he⟩ := ih ⟨x, hmem, hxt, hxp⟩
          refine ⟨e, ?_⟩
          rw [readLines_cons_ok hb hd, he]

theorem lineToDict_ok_of_parts {l : Str} (hp : 12 ≤ (splitPipe (trim l)).length) :
    ∃ b, lineToDict l = .ok b := by
  unfold lineToDict
  rw [if_neg (by omega)]
  exact ⟨_, rfl⟩

theorem readLines_ok {lines : List Str}
    (h : ∀ l ∈ lines, trim l = [] ∨ 12 ≤ (splitPipe (trim l)).length) :
    ∃ bs, readLines lines = .ok bs := by
  induction lines with
  | nil => exact ⟨[], rfl⟩
  | cons l rest ih =>
    obtain ⟨bs, hbs⟩ := ih fun x hx => h x (List.mem_cons_of_mem _ hx)
    by_cases hb : trim l = []
    · exact ⟨bs, by rw [readLines_cons_blank hb, hbs]⟩
    · rcases h l (List.mem_cons_self _ _) with hb2 | hp
      · exact absurd hb2 hb
      · obtain ⟨b, hd⟩ := lineToDict_ok_of_parts hp
        refine ⟨b :: bs, ?_⟩
        rw [readLines_cons_ok hb hd, hbs]

/-- What a successful uniqueness scan says about every line. -/
theorem isUniqueAux_forall {b : Book} {lines : List Str}
    (h : isUniqueAux b lines = .ok true) :
    ∀ l ∈ lines, trim l = [] ∨ ∃ bk, lineToDict l = .ok bk ∧
      ¬(bk.name = b.name ∧ bk.authors = b.authors) := by
  induction lines with
  | nil => simp
  | cons l rest ih =>
    intro x hx
    by_cases hb : trim l = []
    · rw [isUniqueAux_cons_blank hb] at h
      rcases List.mem_cons.mp hx with rfl | hmem
      · exact Or.inl hb
      · exact ih h x hmem
    · cases hd : lineToDict l with
      | error e =>
        rw [isUniqueAux_cons_bad hb hd] at h
        exact absurd h (by simp)
      | ok bk =>
        by_cases hm : bk.name = b.name ∧ bk.authors = b.authors
        · rw [isUniqueAux_cons_match hb hd hm] at h
          exact absurd h (by simp)
        · rw [isUniqueAux_cons_nomatch hb hd hm] at h
          rcases List.mem_cons.mp hx with rfl | hmem
          · exact Or.inr ⟨bk, hd, hm⟩
          · exact ih h x hmem

/-- Converse: a scan over lines none of which collides returns `ok true`. -/
theorem isUniqueAux_of_forall {b : Book} {lines : List Str}
    (h : ∀ l ∈ lines, trim l = [] ∨ ∃ bk, lineToDict l = .ok bk ∧
      ¬(bk.name = b.name ∧ bk.authors = b.authors)) :
    isUniqueAux b lines = .ok true := by
  induction lines with
  | nil => rfl
  | cons l rest ih =>
    have hrest := ih fun x hx => h x (List.mem_cons_of_mem _ hx)
    rcases h l (List.mem_cons_self _ _) with hb | ⟨bk, hd, hm⟩
    · rw [isUniqueAux_cons_blank hb, hrest]
    · by_cases hb : trim l = []
      · rw [isUniqueAux_cons_blank hb, hrest]
      · rw [isUniqueAux_cons_nomatch hb hd hm, hrest]

/-- A scan that reaches a colliding parseable line returns `ok false`. -/
theorem isUniqueAux_false {b : Book} {lines : List Str} {l2 : Str} {bk : Book}
    (h : ∀ l ∈ lines, trim l = [] ∨ ∃ b2, lineToDict l = .ok b2 ∧
      ¬(b2.name = b.name ∧ b2.authors = b.authors))
    (ht : trim l2 ≠ []) (hd : lineToDict l2 = .ok bk)
    (hm : bk.name = b.name ∧ bk.authors = b.authors) :
    isUniqueAux b (lines ++ [l2]) = .ok false := by
  induction lines with
  | nil =>
    exact isUniqueAux_cons_match ht hd hm
  | cons l rest ih =>
    have hrest := ih fun x hx => h x (List.mem_cons_of_mem _ hx)
    show isUniqueAux b (l :: (rest ++ [l2])) = .ok false
    rcases h l (List.mem_cons_self _ _) with hb | ⟨b2, hd2, hm2⟩
    · rw [isUniqueAux_cons_blank hb, hrest]
    · by_cases hb : trim l = []
      · rw [isUniqueAux_cons_blank hb, hrest]
      · rw [isUniqueAux_cons_nomatch hb hd2 hm2, hrest]

theorem lastNonBlankAux_append (acc : Str) (xs ys : List Str) :
    lastNonBlankAux acc (xs ++ ys) = lastNonBlankAux (lastNonBlankAux acc xs) ys := by
  induction xs generalizing acc with
  | nil => rfl
  | cons l rest ih =>
    show lastNonBlankAux _ (rest ++ ys) = _
    rw [ih]
    rfl

theorem getLast?_getD_cons {α : Type} (a d : α) (xs : List α) :
    ((a :: xs).getLast?).getD d = (xs.getLast?).getD a := by
  cases xs with
  | nil => rfl
  | cons b t =>
    have h1 : (b :: t).getLast?.isSome := by
      rw [List.getLast?_isSome]
      simp
    obtain ⟨x, hx⟩ := Option.isSome_iff_exists.mp h1
    rw [List.getLast?_cons_cons, hx]
    rfl

/-- The scanning loop of `getNextID` computes the last line that is non-empty
after trimming. -/
theorem lastNonBlankAux_spec (lines : List Str) (acc : Str) :
    lastNonBlankAux acc lines =
      (((lines.map trim).filter (fun t => !t.isEmpty)).getLast?).getD acc := by
  induction lines generalizing acc with
  | nil => rfl
  | cons l rest ih =>
    show lastNonBlankAux (if trim l ≠ [] then trim l else acc) rest = _
    by_cases hb : trim l = []
    · rw [if_neg (by simp [hb]), ih]
      simp [hb, List.filter_cons]
    · rw [if_pos hb, ih]
      have hfe : (trim l).isEmpty = false := by
        cases h : trim l with
        | nil => exact absurd h hb
        | cons a t => rfl
      simp only [List.map_cons, List.filter_cons, hfe, Bool.not_false, if_pos]
      rw [getLast?_getD_cons]

/-- The id field of the parsed line (used to state which lines `modifyBooksFile`
touches); meaningful on lines that parse. -/
def lineId (l : Str) : Str :=
  match lineToDict l with
  | .ok bk => bk.id
  | .error _ => []

theorem modifyAux_cons_bad {cs : List Book} {upd : Bool} {l : Str} {rest : List Str}
    {e : String} (hd : lineToDict (dropCR l) = .error e) :
    modifyAux cs upd (l :: rest) = .error e := by
  conv_lhs => unfold modifyAux
  rw [hd]

theorem modifyAux_cons_ok {cs : List Book} {upd : Bool} {l : Str} {rest : List Str}
    {bk : Book} (hd : lineToDict (dropCR l) = .ok bk) :
    modifyAux cs upd (l :: rest) =
      match modifyAux cs upd rest with
      | .error e => .error e
      | .ok (found, out) =>
        match lookupLast cs bk.id with
        | some nb =>
          if upd then .ok (true, goLinesOf (bookLine nb) ++ out)
          else .ok (true, out)
        | none => .ok (found, dropCR l :: out) := by
  conv_lhs => unfold modifyAux
  rw [hd]

theorem modifyAux_error {cs : List Book} {upd : Bool} {lines : List Str}
    (h : ∃ l ∈ lines, (splitPipe (trim (dropCR l))).length < 12) :
    ∃ e, modifyAux cs upd lines = .error e := by
  induction lines with
  | nil => simp at h
  | cons l rest ih =>
    rcases h with ⟨x, hx, hxp⟩
    rcases List.mem_cons.mp hx with rfl | hmem
    · have hd : lineToDict (dropCR x) = .error "недостаточно частей в строке" := by
        unfold lineToDict
        rw [if_pos hxp]
      exact ⟨_, modifyAux_cons_bad hd⟩
    · cases hd : lineToDict (dropCR l) with
      | error e => exact ⟨e, modifyAux_cons_bad hd⟩
      | ok bk =>
        obtain ⟨e, he⟩ := ih ⟨x, hmem, hxp⟩
        refine ⟨e, ?_⟩
        rw [modifyAux_cons_ok hd, he]

/-- The delete-mode scan is exactly a filter on the parsed id, with the found
flag recording whether any line matched. -/
theorem modifyAux_delete {cs : List Book} {lines : List Str}
    (h : ∀ l ∈ lines, dropCR l = l ∧ ∃ bk, lineToDict l = .ok bk) :
    modifyAux cs false lines = .ok
      (lines.any fun l => (lookupLast cs (lineId l)).isSome,
       lines.filter fun l => !(lookupLast cs (lineId l)).isSome) := by
  induction lines with
  | nil => rfl
  | cons l rest ih =>
    obtain ⟨hcr, bk, hd⟩ := h l (List.mem_cons_self _ _)
    have hrest := ih fun x hx => h x (List.mem_cons_of_mem _ hx)
    have hd2 : lineToDict (dropCR l) = .ok bk := by rw [hcr]; exact hd
    have hid : lineId l = bk.id := by unfold lineId; rw [hd]
    rw [modifyAux_cons_ok hd2, hrest]
    cases hlk : lookupLast cs bk.id with
    | some nb =>
      simp only [List.any_cons, List.filter_cons, hid, hlk, Option.isSome_some,
        Bool.not_true, Bool.true_or, if_false]
      simp [hcr]
    | none =>
      simp only [List.any_cons, List.filter_cons, hid, hlk, Option.isSome_none,
        Bool.not_false, Bool.false_or, if_true]
      simp [hcr]

theorem searchAux_cons_blank {f : String} {v : Str} {l : Str} {rest : List Str}
    (hb : trim l = []) : searchAux f v (l :: rest) = searchAux f v rest := by
  conv_lhs => unfold searchAux
  rw [if_pos hb]

theorem searchAux_cons_bad {f : String} {v : Str} {l : Str} {rest : List Str} {e : String}
    (hb : trim l ≠ []) (hd : lineToDict l = .error e) :
    searchAux f v (l :: rest) = .error e := by
  conv_lhs => unfold searchAux
  rw [if_neg hb, hd]

theorem searchAux_cons_none {f : String} {v : Str} {l : Str} {rest : List Str} {b : Book}
    (hb : trim l ≠ []) (hd : lineToDict l = .ok b)
    (hdg : dictGet b (if f = "cover" then "book_type" else f) = none) :
    searchAux f v (l :: rest) = searchAux f v rest := by
  conv_lhs => unfold searchAux
  rw [if_neg hb, hd]
  show (match dictGet b (if f = "cover" then "book_type" else f) with
    | none => searchAux f v rest
    | some v1 =>
      if f = "id" then
        (if v1 = v then .ok [b] else searchAux f v rest)
      else if f = "year" || f = "width" || f = "height" then
        (if v1 = v then
          match searchAux f v rest with
          | .error e => .error e
          | .ok bs => .ok (b :: bs)
        else searchAux f v rest)
      else
        (if hasInfix (lowerStr v1) (lowerStr v) then
          match searchAux f v rest with
          | .error e => .error e
          | .ok bs => .ok (b :: bs)
        else searchAux f v rest)) = _
  rw [hdg]

theorem searchAux_cons_some {f : String} {v : Str} {l : Str} {rest : List Str} {b : Book}
    {vb : Str} (hb : trim l ≠ []) (hd : lineToDict l = .ok b)
    (hdg : dictGet b (if f = "cover" then "book_type" else f) = some vb) :
    searchAux f v (l :: rest) =
      (if f = "id" then
        (if vb = v then .ok [b] else searchAux f v rest)
      else if f = "year" || f = "width" || f = "height" then
        (if vb = v then
          match searchAux f v rest with
          | .error e => .error e
          | .ok bs => .ok (b :: bs)
        else searchAux f v rest)
      else
        (if hasInfix (lowerStr vb) (lowerStr v) then
          match searchAux f v rest with
          | .error e => .error e
          | .ok bs => .ok (b :: bs)
        else searchAux f v rest)) := by
  conv_lhs => unfold searchAux
  rw [if_neg hb, hd]
  show (match dictGet b (if f = "cover" then "book_type" else f) with
    | none => searchAux f v rest
    | some v1 =>
      if f = "id" then
        (if v1 = v then .ok [b] else searchAux f v rest)
      else if f = "year" || f = "width" || f = "height" then
        (if v1 = v then
          match searchAux f v rest with
          | .error e => .error e
          | .ok bs => .ok (b :: bs)
        else searchAux f v rest)
      else
        (if hasInfix (lowerStr v1) (lowerStr v) then
          match searchAux f v rest with
          | .error e => .error e
          | .ok bs => .ok (b :: bs)
        else searchAux f v rest)) = _
  rw [hdg]

theorem searchAux_result {f : String} {v : Str} {lines : List Str}
    (h : ∃ l ∈ lines, trim l ≠ [] ∧ (splitPipe (trim l)).length < 12) :
    (∃ e, searchAux f v lines = .error e) ∨
      (f = "id" ∧ ∃ b, searchAux f v lines = .ok [b]) := by
  induction lines with
  | nil => simp at h
  | cons l rest ih =>
    rcases h with ⟨x, hx, hxt, hxp⟩
    by_cases hb : trim l = []
    · have hmem : x ∈ rest := by
        rcases List.mem_cons.mp hx with rfl | hm
        · exact absurd hb hxt
        · exact hm
      rw [searchAux_cons_blank hb]
      exact ih ⟨x, hmem, hxt, hxp⟩
    · cases hd : lineToDict l with
      | error e => exact Or.inl ⟨e, searchAux_cons_bad hb hd⟩
      | ok b =>
        have hmem : x ∈ rest := by
          rcases List.mem_cons.mp hx with rfl | hm
          · have hcontra : lineToDict x = .error "недостаточно частей в строке" := by
              unfold lineToDict
              rw [if_pos hxp]
            rw [hd] at hcontra
            exact absurd hcontra (by simp)
          · exact hm
        have ihr := ih ⟨x, hmem, hxt, hxp⟩
        cases hdg : dictGet b (if f = "cover" then "book_type" else f) with
        | none =>
          rw [searchAux_cons_none hb hd hdg]
          exact ihr
        | some vb =>
          rw [searchAux_cons_some hb hd hdg]
          by_cases h1 : f = "id"
          · subst h1
            rw [if_pos rfl]
            by_cases h2 : vb = v
            · exact Or.inr ⟨rfl, b, by rw [if_pos h2]⟩
            · rw [if_neg h2]
              exact ihr
          · rw [if_neg h1]
            rcases ihr with ⟨e, he⟩ | ⟨hf, _⟩
            · by_cases h3 : (f = "year" || f = "width" || f = "height") = true
              · rw [if_pos h3]
                by_cases h4 : vb = v
                · exact Or.inl ⟨e, by rw [if_pos h4, he]⟩
                · exact Or.inl ⟨e, by rw [if_neg h4, he]⟩
              · rw [if_neg (by simpa using h3)]
                by_cases h5 : hasInfix (lowerStr vb) (lowerStr v) = true
                · exact Or.inl ⟨e, by rw [if_pos h5, he]⟩
                · exact Or.inl ⟨e, by rw [if_neg (by simpa using h5), he]⟩
            · exact absurd hf h1

theorem searchAux_ok {f : String} {v : Str} {lines : List Str}
    (h : ∀ l ∈ lines, trim l = [] ∨ 12 ≤ (splitPipe (trim l)).length) :
    ∃ bs, searchAux f v lines = .ok bs := by
  induction lines with
  | nil => exact ⟨[], rfl⟩
  | cons l rest ih =>
    obtain ⟨bs, hbs⟩ := ih fun x hx => h x (List.mem_cons_of_mem _ hx)
    by_cases hb : trim l = []
    · exact ⟨bs, by rw [searchAux_cons_blank hb, hbs]⟩
    · rcases h l (List.mem_cons_self _ _) with hb2 | hp
      · exact absurd hb2 hb
      · obtain ⟨b, hd⟩ := lineToDict_ok_of_parts hp
        cases hdg : dictGet b (if f = "cover" then "book_type" else f) with
        | none => exact ⟨bs, by rw [searchAux_cons_none hb hd hdg, hbs]⟩
        | some vb =>
          rw [searchAux_cons_some hb hd hdg]
          by_cases h1 : f = "id"
          · subst h1
            rw [if_pos rfl]
            by_cases h2 : vb = v
            · exact ⟨[b], by rw [if_pos h2]⟩
            · exact ⟨bs, by rw [if_neg h2, hbs]⟩
          · rw [if_neg h1]
            by_cases h3 : (f = "year" || f = "width" || f = "height") = true
            · rw [if_pos h3]
              by_cases h4 : vb = v
              · exact ⟨b :: bs, by rw [if_pos h4, hbs]⟩
              · exact ⟨bs, by rw [if_neg h4, hbs]⟩
            · rw [if_neg (by simpa using h3)]
              by_cases h5 : hasInfix (lowerStr vb) (lowerStr v) = true
              · exact ⟨b :: bs, by rw [if_pos h5, hbs]⟩
              · exact ⟨bs, by rw [if_neg (by simpa using h5), hbs]⟩

theorem lastNonBlankAux_single (acc x : Str) :
    lastNonBlankAux acc [x] = if trim x ≠ [] then trim x else acc := rfl

/-- `getNextID` on a file ending with a well-formed serialized record parses
that record's id. -/
theorem getNextID_append_last {lines : List Str} {b : Book} (hwf : wfBook b = true) :
    getNextID (some (lines ++ [bookLine b])) =
      match goAtoi b.id with
      | none => .error "неверный формат ID"
      | some id => .ok (id + 1) := by
  have ht : trim (bookLine b) = bookLine b := trim_bookLine hwf
  have hne : bookLine b ≠ [] := by
    rw [bookLine_decomp b]
    simp
  have hlast : lastNonBlankAux [] (lines ++ [bookLine b]) = bookLine b := by
    rw [lastNonBlankAux_append, lastNonBlankAux_single, ht, if_pos hne]
  show (if lastNonBlankAux [] (lines ++ [bookLine b]) = [] then (.ok 1 : Except String Int)
    else
      match lineToDict (lastNonBlankAux [] (lines ++ [bookLine b])) with
      | .error e => .error e
      | .ok bk =>
        match goAtoi bk.id with
        | none => .error "неверный формат ID"
        | some id => .ok (id + 1)) = _
  rw [hlast, if_neg hne, lineToDict_bookLine hwf]

theorem Create_created_inv {b : Book} {f : FileState} {n : Int} {f2 : FileState}
    (h : Create b f = (.created n, f2)) :
    getNextID f = .ok n ∧ isUniqueBook { b with id := intToStr n } f = .ok true ∧
      f2 = appendBookToFile { b with id := intToStr n } f := by
  unfold Create at h
  cases hg : getNextID f with
  | error e =>
    rw [hg] at h
    simp at h
  | ok m =>
    rw [hg] at h
    cases hu : isUniqueBook { b with id := intToStr m } f with
    | error e =>
      simp only [hu] at h
      simp at h
    | ok bb =>
      simp only [hu] at h
      cases bb
      · simp at h
      · simp only [Prod.mk.injEq, CreateRes.created.injEq] at h
        obtain ⟨rfl, hf⟩ := h
        exact ⟨rfl, hu, hf.symm⟩

theorem appendBook_wf {b : Book} (h : wfBook b = true) (f : FileState) :
    appendBookToFile b f = some (f.getD [] ++ [bookLine b]) := by
  cases f <;> simp [appendBookToFile, goLinesOf_bookLine h]

/- Further helper lemmas for the claim theorems. -/

theorem cr_not_mem_joinPipe : ∀ {fs : List Str}, (∀ f ∈ fs, '\r' ∉ f) →
    '\r' ∉ joinPipe fs := by
  intro fs
  induction fs with
  | nil =>
    intro _ hm
    simp [joinPipe] at hm
  | cons f rest ih =>
    intro h hm
    cases rest with
    | nil => exact h f (List.mem_cons_self _ _) hm
    | cons g rest2 =>
      have hm2 : '\r' ∈ f ++ '|' :: joinPipe (g :: rest2) := hm
      rcases List.mem_append.mp hm2 with h1 | h2
      · exact h f (List.mem_cons_self _ _) h1
      · rcases List.mem_cons.mp h2 with h3 | h4
        · exact absurd h3 (by decide)
        · exact ih (fun x hx => h x (List.mem_cons_of_mem _ hx)) h4

theorem wfBook_cr {b : Book} (h : wfBook b = true) : ∀ f ∈ bookFields b, '\r' ∉ f := by
  simp only [wfBook, Bool.and_eq_true] at h
  obtain ⟨⟨⟨⟨⟨⟨⟨⟨⟨⟨⟨⟨⟨h1, h2⟩, h3⟩, h4⟩, h5⟩, h6⟩, h7⟩, h8⟩, h9⟩, h10⟩, h11⟩, h12⟩, _⟩, _⟩ := h
  intro f hf
  simp only [bookFields, List.mem_cons, List.not_mem_nil, or_false] at hf
  rcases hf with rfl | rfl | rfl | rfl | rfl | rfl | rfl | rfl | rfl | rfl | rfl | rfl <;>
    first
      | exact cr_not_mem_of_good h1
      | exact cr_not_mem_of_good h2
      | exact cr_not_mem_of_good h3
      | exact cr_not_mem_of_good h4
      | exact cr_not_mem_of_good h5
      | exact cr_not_mem_of_good h6
      | exact cr_not_mem_of_good h7
      | exact cr_not_mem_of_good h8
      | exact cr_not_mem_of_good h9
      | exact cr_not_mem_of_good h10
      | exact cr_not_mem_of_good h11
      | exact cr_not_mem_of_good h12

theorem dropCR_eq_self {s : Str} (h : '\r' ∉ s) : dropCR s = s := by
  unfold dropCR
  cases hl : s.getLast? with
  | none => rw [if_neg (by simp [hl])]
  | some c =>
    by_cases hc : c = '\r'
    · subst hc
      have : '\r' ∈ s := List.mem_of_mem_getLast? hl
      exact absurd this h
    · rw [if_neg (by simp [hl, hc])]

theorem dropCR_bookLine {b : Book} (h : wfBook b = true) : dropCR (bookLine b) = bookLine b :=
  dropCR_eq_self (cr_not_mem_joinPipe (wfBook_cr h))

theorem lookupLast_none {cs : List Book} {s : Str} (h : ∀ c ∈ cs, c.id ≠ s) :
    lookupLast cs s = none := by
  induction cs with
  | nil => rfl
  | cons c rest ih =>
    unfold lookupLast
    unfold lookupLast at ih
    rw [List.foldl_cons, if_neg (h c (List.mem_cons_self _ _))]
    exact ih fun x hx => h x (List.mem_cons_of_mem _ hx)

theorem lookupLast_acc (cs : List Book) (s : Str) (acc : Option Book) :
    (cs.foldl (fun acc c => if c.id = s then some c else acc) acc).isSome = true ↔
      (∃ c ∈ cs, c.id = s) ∨ acc.isSome = true := by
  induction cs generalizing acc with
  | nil => simp
  | cons c rest ih =>
    rw [List.foldl_cons]
    by_cases hc : c.id = s
    · rw [if_pos hc, ih]
      simp [hc]
    · rw [if_neg hc, ih]
      constructor
      · rintro (⟨x, hx, he⟩ | ha)
        · exact Or.inl ⟨x, List.mem_cons_of_mem _ hx, he⟩
        · exact Or.inr ha
      · rintro (⟨x, hx, he⟩ | ha)
        · rcases List.mem_cons.mp hx with rfl | hm
          · exact absurd he hc
          · exact Or.inl ⟨x, hm, he⟩
        · exact Or.inr ha

theorem lookupLast_isSome {cs : List Book} {s : Str} :
    (lookupLast cs s).isSome = true ↔ ∃ c ∈ cs, c.id = s := by
  unfold lookupLast
  rw [lookupLast_acc]
  simp

/-- Version of `lineId` through the scanner's carriage-return stripping. -/
def lineIdCR (l : Str) : Str :=
  match lineToDict (dropCR l) with
  | .ok bk => bk.id
  | .error _ => []

/-- Any successful delete-mode scan wrote exactly the non-matching lines (as
the scanner produced them, one carriage return stripped). -/
theorem modifyAux_delete_ok {cs : List Book} {L : List Str} {fnd : Bool} {out : List Str}
    (h : modifyAux cs false L = .ok (fnd, out)) :
    out = (L.filter fun l => !(lookupLast cs (lineIdCR l)).isSome).map dropCR := by
  induction L generalizing fnd out with
  | nil =>
    unfold modifyAux at h
    simp only [Except.ok.injEq, Prod.mk.injEq] at h
    simp [← h.2]
  | cons l rest ih =>
    cases hd : lineToDict (dropCR l) with
    | error e =>
      rw [modifyAux_cons_bad hd] at h
      exact absurd h (by simp)
    | ok bk =>
      rw [modifyAux_cons_ok hd] at h
      have hid : lineIdCR l = bk.id := by
        unfold lineIdCR
        rw [hd]
      cases hr : modifyAux cs false rest with
      | error e =>
        rw [hr] at h
        exact absurd h (by simp)
      | ok p =>
        obtain ⟨fnd2, out2⟩ := p
        rw [hr] at h
        have ihr := ih hr
        cases hlk : lookupLast cs bk.id with
        | some nb =>
          rw [hlk] at h
          simp only [Bool.false_eq_true, if_false, Except.ok.injEq, Prod.mk.injEq] at h
          rw [List.filter_cons, hid, hlk]
          simp only [Option.isSome_some, Bool.not_true, Bool.false_eq_true, if_false]
          rw [← h.2, ihr]
        | none =>
          rw [hlk] at h
          simp only [Except.ok.injEq, Prod.mk.injEq] at h
          rw [List.filter_cons, hid, hlk]
          simp only [Option.isSome_none, Bool.not_false, if_true]
          rw [List.map_cons, ← h.2, ihr]

/-- Every parsed record of a read comes from a line of the file. -/
theorem readLines_mem {lines : List Str} {bs : List Book} (h : readLines lines = .ok bs) :
    ∀ bk ∈ bs, ∃ l ∈ lines, trim l ≠ [] ∧ lineToDict l = .ok bk := by
  induction lines generalizing bs with
  | nil =>
    have : bs = [] := by
      unfold readLines at h
      simpa using h.symm
    subst this
    simp
  | cons l rest ih =>
    by_cases hb : trim l = []
    · rw [readLines_cons_blank hb] at h
      intro bk hbk
      obtain ⟨l2, hl2, ht2, hd2⟩ := ih h bk hbk
      exact ⟨l2, List.mem_cons_of_mem _ hl2, ht2, hd2⟩
    · cases hd : lineToDict l with
      | error e =>
        rw [readLines_cons_bad hb hd] at h
        exact absurd h (by simp)
      | ok b =>
        rw [readLines_cons_ok hb hd] at h
        cases hr : readLines rest with
        | error e =>
          rw [hr] at h
          exact absurd h (by simp)
        | ok cs =>
          rw [hr] at h
          simp only [Except.ok.injEq] at h
          subst h
          intro bk hbk
          rcases List.mem_cons.mp hbk with rfl | hm
          · exact ⟨l, List.mem_cons_self _ _, hb, hd⟩
          · obtain ⟨l2, hl2, ht2, hd2⟩ := ih hr bk hm
            exact ⟨l2, List.mem_cons_of_mem _ hl2, ht2, hd2⟩

/-- Pairwise distinctness of the (name, authors) pairs of a list of records. -/
def noDupPairs : List Book → Bool
  | [] => true
  | b :: rest =>
    rest.all (fun x => !(x.name = b.name && x.authors = b.authors)) && noDupPairs rest

theorem noDupPairs_cons (b : Book) (rest : List Book) :
    noDupPairs (b :: rest) =
      ((rest.all fun x => !(x.name = b.name && x.authors = b.authors)) && noDupPairs rest) := rfl

theorem noDupPairs_append_single {bs : List Book} {c : Book}
    (h1 : noDupPairs bs = true)
    (h2 : ∀ x ∈ bs, ¬(x.name = c.name ∧ x.authors = c.authors)) :
    noDupPairs (bs ++ [c]) = true := by
  induction bs with
  | nil => simp [noDupPairs]
  | cons b rest ih =>
    rw [noDupPairs_cons, Bool.and_eq_true] at h1
    show noDupPairs (b :: (rest ++ [c])) = true
    rw [noDupPairs_cons, Bool.and_eq_true]
    constructor
    · rw [List.all_append, Bool.and_eq_true]
      refine ⟨h1.1, ?_⟩
      simp only [List.all_cons, List.all_nil, Bool.and_true]
      have := h2 b (List.mem_cons_self _ _)
      have hns : ¬(c.name = b.name ∧ c.authors = b.authors) := by
        intro hcb
        exact this ⟨hcb.1.symm, hcb.2.symm⟩
      rcases not_and_or.mp hns with hx | hx <;> simp [hx]
    · exact ih h1.2 fun x hx => h2 x (List.mem_cons_of_mem _ hx)

/- Extraction lemmas: what acceptance by each validator says about the
characters of the field. -/

theorem mainValidateName_class {s : Str} (h : mainValidateName s = .ok ()) :
    matchClass mainNameCh 1 100 s = true := by
  unfold mainValidateName at h
  by_cases hm : matchClass mainNameCh 1 100 s = true
  · exact hm
  · have hm2 : matchClass mainNameCh 1 100 s = false := by simpa using hm
    rw [hm2] at h
    split at h <;> simp at h

theorem ValidateAuthors_ok {s t : Str} (h : ValidateAuthors s = .ok t) :
    t = normalizeCommas s ∧ matchClass authorsCh 1 130 t = true := by
  unfold ValidateAuthors at h
  by_cases h1 : (hasInfix (normalizeCommas s) (str "  ") ||
      hasInfix (normalizeCommas s) (str ",,")) = true
  · rw [if_pos h1] at h
    simp at h
  · rw [if_neg h1] at h
    by_cases h2 : matchClass authorsCh 1 130 (normalizeCommas s) = true
    · rw [if_neg (by simp [h2])] at h
      simp only [Except.ok.injEq] at h
      subst h
      exact ⟨rfl, h2⟩
    · have h2f : matchClass authorsCh 1 130 (normalizeCommas s) = false := by simpa using h2
      rw [h2f] at h
      simp at h

theorem ValidateGenres_ok {s t : Str} (h : ValidateGenres s = .ok t) :
    t = normalizeCommas s ∧ matchClass authorsCh 1 100 t = true := by
  unfold ValidateGenres at h
  by_cases h1 : (hasInfix (normalizeCommas s) (str "  ") ||
      hasInfix (normalizeCommas s) (str ",,")) = true
  · rw [if_pos h1] at h
    simp at h
  · rw [if_neg h1] at h
    by_cases h2 : matchClass authorsCh 1 100 (normalizeCommas s) = true
    · rw [if_neg (by simp [h2])] at h
      simp only [Except.ok.injEq] at h
      subst h
      exact ⟨rfl, h2⟩
    · have h2f : matchClass authorsCh 1 100 (normalizeCommas s) = false := by simpa using h2
      rw [h2f] at h
      simp at h

theorem ValidateYear_shape {cy : Int} {s : Str} (h : ValidateYear cy s = .ok ()) :
    matchYear s = true := by
  unfold ValidateYear at h
  by_cases hm : matchYear s = true
  · exact hm
  · have hm2 : matchYear s = false := by simpa using hm
    rw [hm2] at h
    simp at h

theorem ValidateHeightWidth_shape {s : Str} {axis : String}
    (h : ValidateHeightWidth s axis = .ok ()) : decShape s = true := by
  unfold ValidateHeightWidth at h
  by_cases hm : decShape s = true
  · exact hm
  · have hm2 : decShape s = false := by simpa using hm
    rw [hm2] at h
    simp at h

theorem ValidateCover_shape {s : Str} (h : ValidateCover s = .ok ()) :
    s = str "мягкий" ∨ s = str "твердый" := by
  unfold ValidateCover at h
  by_cases hc : (decide (s = str "мягкий") || decide (s = str "твердый")) = true
  · simpa using hc
  · rw [if_neg (by simpa using hc)] at h
    simp at h

theorem ValidateSource_shape {s : Str} (h : ValidateSource s = .ok ()) :
    s = str "покупка" ∨ s = str "подарок" ∨ s = str "наследство" := by
  unfold ValidateSource at h
  by_cases hc : (decide (s = str "покупка") || decide (s = str "подарок") ||
      decide (s = str "наследство")) = true
  · simpa [or_assoc] using hc
  · rw [if_neg (by simpa using hc)] at h
    simp at h

theorem ValidateAdded_shape {today : GoDate} {added year : Str}
    (h : ValidateAdded today added year = .ok ()) : matchDate added = true := by
  unfold ValidateAdded at h
  by_cases hm : matchDate added = true
  · exact hm
  · have hm2 : matchDate added = false := by simpa using hm
    rw [hm2] at h
    simp at h

theorem ValidateRead_shape {rd added : Str} (h : ValidateRead rd added = .ok ()) :
    rd = [] ∨ matchDate rd = true := by
  unfold ValidateRead at h
  by_cases h0 : rd = []
  · exact Or.inl h0
  · rw [if_neg h0] at h
    by_cases hm : matchDate rd = true
    · exact Or.inr hm
    · have hm2 : matchDate rd = false := by simpa using hm
      rw [hm2] at h
      simp at h

theorem ValidateRating_shape {s : Str} (h : ValidateRating s = .ok ()) :
    s = [] ∨ matchRating s = true := by
  unfold ValidateRating at h
  by_cases h0 : s = []
  · exact Or.inl h0
  · rw [if_neg h0] at h
    by_cases hm : matchRating s = true
    · exact Or.inr hm
    · have hm2 : matchRating s = false := by simpa using hm
      rw [hm2] at h
      simp at h

/- Character-class arithmetic. -/

theorem mainNameCh_no_pipe {c : Char} (h : mainNameCh c = true) : c.toNat ≠ 124 := by
  simp only [mainNameCh, isCyr, isLatin, isDigitCh, isGoWS, Bool.or_eq_true,
    Bool.and_eq_true, decide_eq_true_eq] at h
  omega

theorem authorsCh_no_pipe {c : Char} (h : authorsCh c = true) : c.toNat ≠ 124 := by
  simp only [authorsCh, isCyr, isLatin, isGoWS, Bool.or_eq_true,
    Bool.and_eq_true, decide_eq_true_eq] at h
  omega

theorem ratingCh_no_pipe {c : Char} (h : ratingCh c = true) : c.toNat ≠ 124 := by
  simp only [ratingCh, isCyr, isLatin, isDigitCh, isGoWS, Bool.or_eq_true,
    Bool.and_eq_true, decide_eq_true_eq] at h
  omega

theorem digit_good {c : Char} (h : isDigitCh c = true) :
    c.toNat ≠ 124 ∧ c.toNat ≠ 10 ∧ c.toNat ≠ 13 := by
  simp only [isDigitCh, Bool.and_eq_true, decide_eq_true_eq] at h
  omega

theorem goodFieldB_of {s : Str} (h124 : ∀ c ∈ s, c.toNat ≠ 124)
    (hnl : '\n' ∉ s) (hcr : '\r' ∉ s) : goodFieldB s = true := by
  unfold goodFieldB
  rw [List.all_eq_true]
  intro c hc
  simp only [Bool.not_eq_true', Bool.or_eq_false_iff, decide_eq_false_iff_not]
  refine ⟨⟨h124 c hc, fun h10 => hnl ?_⟩, fun h13 => hcr ?_⟩
  · have hcn : c = '\n' := char_toNat_inj (by rw [h10]; rfl)
    rwa [hcn] at hc
  · have hcr2 : c = '\r' := char_toNat_inj (by rw [h13]; rfl)
    rwa [hcr2] at hc

theorem goodFieldB_of_arith {s : Str}
    (h : ∀ c ∈ s, c.toNat ≠ 124 ∧ c.toNat ≠ 10 ∧ c.toNat ≠ 13) : goodFieldB s = true := by
  unfold goodFieldB
  rw [List.all_eq_true]
  intro c hc
  obtain ⟨g1, g2, g3⟩ := h c hc
  simp only [Bool.not_eq_true', Bool.or_eq_false_iff, decide_eq_false_iff_not]
  exact ⟨⟨g1, g2⟩, g3⟩

theorem matchClass_all {cls : Char → Bool} {lo hi : Nat} {s : Str}
    (h : matchClass cls lo hi s = true) : ∀ c ∈ s, cls c = true := by
  simp only [matchClass, Bool.and_eq_true, decide_eq_true_eq, List.all_eq_true] at h
  exact h.2

theorem matchYear_chars {s : Str} (h : matchYear s = true) : ∀ c ∈ s, isDigitCh c = true := by
  simp only [matchYear, Bool.and_eq_true, decide_eq_true_eq, List.all_eq_true] at h
  exact h.2

theorem matchDate_chars {s : Str} (h : matchDate s = true) :
    ∀ c ∈ s, isDigitCh c = true ∨ c.toNat = 45 := by
  unfold matchDate at h
  split at h
  next a b c d e f g i =>
    simp only [Bool.and_eq_true] at h
    obtain ⟨⟨⟨⟨⟨⟨⟨ha, hb⟩, hc⟩, hd⟩, he⟩, hf⟩, hg⟩, hi⟩ := h
    intro x hx
    simp only [List.mem_cons, List.not_mem_nil, or_false] at hx
    rcases hx with rfl | rfl | rfl | rfl | rfl | rfl | rfl | rfl | rfl | rfl
    · exact Or.inl ha
    · exact Or.inl hb
    · exact Or.inr (by decide)
    · exact Or.inl hc
    · exact Or.inl hd
    · exact Or.inr (by decide)
    · exact Or.inl he
    · exact Or.inl hf
    · exact Or.inl hg
    · exact Or.inl hi
  next => simp at h

theorem mem_splitOnChar {sep c : Char} : ∀ {s : Str}, c ∈ s →
    c = sep ∨ ∃ p ∈ splitOnChar sep s, c ∈ p := by
  intro s
  induction s with
  | nil => simp
  | cons d rest ih =>
    intro hc
    cases hrec : splitOnChar sep rest with
    | nil => exact absurd hrec (splitOnChar_ne_nil sep rest)
    | cons hh tt =>
      have hval : splitOnChar sep (d :: rest) =
          if d = sep then [] :: hh :: tt else (d :: hh) :: tt := by
        show (match splitOnChar sep rest with
          | [] => [[d]]
          | h :: t => if d = sep then [] :: h :: t else (d :: h) :: t) = _
        rw [hrec]
      rcases List.mem_cons.mp hc with rfl | hm
      · by_cases hds : c = sep
        · exact Or.inl hds
        · right
          rw [hval, if_neg hds]
          exact ⟨c :: hh, List.mem_cons_self _ _, List.mem_cons_self _ _⟩
      · rcases ih hm with rfl | ⟨p, hp, hcp⟩
        · exact Or.inl rfl
        · right
          rw [hrec] at hp
          by_cases hds : d = sep
          · rw [hval, if_pos hds]
            exact ⟨p, List.mem_cons_of_mem _ hp, hcp⟩
          · rw [hval, if_neg hds]
            rcases List.mem_cons.mp hp with rfl | hpt
            · exact ⟨d :: p, List.mem_cons_self _ _, List.mem_cons_of_mem _ hcp⟩
            · exact ⟨p, List.mem_cons_of_mem _ hpt, hcp⟩

theorem decShape_chars {s : Str} (h : decShape s = true) :
    ∀ c ∈ s, isDigitCh c = true ∨ c.toNat = 46 := by
  intro c hc
  rcases @mem_splitOnChar '.' c s hc with rfl | ⟨p, hp, hcp⟩
  · exact Or.inr (by decide)
  · unfold decShape at h
    split at h
    next a heq =>
      rw [heq] at hp
      simp only [List.mem_singleton] at hp
      subst hp
      simp only [Bool.and_eq_true, List.all_eq_true] at h
      exact Or.inl (h.2 c hcp)
    next a b heq =>
      rw [heq] at hp
      simp only [List.mem_cons, List.not_mem_nil, or_false] at hp
      simp only [Bool.and_eq_true, List.all_eq_true] at h
      rcases hp with rfl | rfl
      · exact Or.inl (h.1.1.2 c hcp)
      · exact Or.inl (h.2 c hcp)
    next => simp at h

theorem commentOk_chars {s : Str} (h : commentOk s = true) : ∀ c ∈ s, ratingCh c = true := by
  simp only [commentOk, Bool.and_eq_true, decide_eq_true_eq, List.all_eq_true] at h
  exact h.2

theorem matchRating_chars {s : Str} (h : matchRating s = true) :
    ∀ c ∈ s, c.toNat ≠ 124 := by
  unfold matchRating at h
  by_cases hp : (str "10/10 - ").isPrefixOf s = true
  · rw [if_pos hp] at h
    obtain ⟨t, ht⟩ := (List.isPrefixOf_iff_prefix.mp hp)
    intro c hc
    rw [← ht] at hc
    rcases List.mem_append.mp hc with h1 | h2
    · have hall : ∀ x ∈ str "10/10 - ", x.toNat ≠ 124 := by decide
      exact hall c h1
    · have hts : t = s.drop 8 := by
        rw [← ht]
        simp [str]
      rw [← hts] at h
      exact ratingCh_no_pipe (commentOk_chars h c h2)
  · rw [if_neg hp] at h
    cases s with
    | nil => simp at h
    | cons c0 rest =>
      simp only [Bool.and_eq_true] at h
      obtain ⟨⟨hc0, hpre⟩, hcm⟩ := h
      obtain ⟨t, ht⟩ := (List.isPrefixOf_iff_prefix.mp hpre)
      intro c hc
      rcases List.mem_cons.mp hc with rfl | hm
      · simp only [decide_eq_true_eq] at hc0
        omega
      · rw [← ht] at hm
        rcases List.mem_append.mp hm with h1 | h2
        · have hall : ∀ x ∈ str "/10 - ", x.toNat ≠ 124 := by decide
          exact hall c h1
        · have hts : t = rest.drop 6 := by
            rw [← ht]
            simp [str]
          rw [← hts] at hcm
          exact ratingCh_no_pipe (commentOk_chars hcm c h2)

/- Well-formedness of the non-id fields, and its consequences. -/

def wfFields (b : Book) : Bool :=
  goodFieldB b.name && goodFieldB b.year && goodFieldB b.authors &&
  goodFieldB b.genres && goodFieldB b.width && goodFieldB b.height &&
  goodFieldB b.cover && goodFieldB b.source && goodFieldB b.added &&
  goodFieldB b.read && goodFieldB b.rating && lastOkB b.rating

theorem goodFieldB_intToStr (n : Int) : goodFieldB (intToStr n) = true := by
  apply goodFieldB_of_arith
  intro c hc
  rcases intToStr_chars n c hc with hd | h45
  · exact digit_good hd
  · omega

theorem not_uniSpace_of_digit_or_dash {c : Char}
    (h : isDigitCh c = true ∨ c.toNat = 45) : isUniSpace c = false := by
  rw [Bool.eq_false_iff]
  intro hs
  simp only [isUniSpace, Bool.or_eq_true, Bool.and_eq_true, decide_eq_true_eq] at hs
  simp only [isDigitCh, Bool.and_eq_true, decide_eq_true_eq] at h
  omega

theorem headOkB_intToStr (n : Int) : headOkB (intToStr n) = true := by
  unfold headOkB
  cases hh : (intToStr n).head? with
  | none => rfl
  | some c =>
    have hc : c ∈ intToStr n := List.mem_of_mem_head? hh
    show (!isUniSpace c) = true
    rw [not_uniSpace_of_digit_or_dash (intToStr_chars n c hc)]
    rfl

theorem wfBook_setId {b : Book} (h : wfFields b = true) (n : Int) :
    wfBook { b with id := intToStr n } = true := by
  simp only [wfFields, Bool.and_eq_true] at h
  obtain ⟨⟨⟨⟨⟨⟨⟨⟨⟨⟨⟨h1, h2⟩, h3⟩, h4⟩, h5⟩, h6⟩, h7⟩, h8⟩, h9⟩, h10⟩, h11⟩, h12⟩ := h
  unfold wfBook
  simp only [Bool.and_eq_true]
  exact ⟨⟨⟨⟨⟨⟨⟨⟨⟨⟨⟨⟨⟨goodFieldB_intToStr n, h1⟩, h2⟩, h3⟩, h4⟩, h5⟩, h6⟩, h7⟩,
    h8⟩, h9⟩, h10⟩, h11⟩, headOkB_intToStr n⟩, h12⟩

theorem decChar_good {c : Char} (h : isDigitCh c = true ∨ c.toNat = 46) :
    c.toNat ≠ 124 ∧ c.toNat ≠ 10 ∧ c.toNat ≠ 13 := by
  rcases h with hd | h46
  · exact digit_good hd
  · omega

theorem dateChar_good {c : Char} (h : isDigitCh c = true ∨ c.toNat = 45) :
    c.toNat ≠ 124 ∧ c.toNat ≠ 10 ∧ c.toNat ≠ 13 := by
  rcases h with hd | h45
  · exact digit_good hd
  · omega

theorem wfFields_of_validators {b : Book} {today : GoDate} {curYear : Int}
    (hname : mainValidateName b.name = .ok ())
    (hauth : ValidateAuthors b.authors = .ok b.authors)
    (hgen : ValidateGenres b.genres = .ok b.genres)
    (hyear : ValidateYear curYear b.year = .ok ())
    (hw : ValidateHeightWidth b.width "width" = .ok ())
    (hh : ValidateHeightWidth b.height "height" = .ok ())
    (hc : ValidateCover b.cover = .ok ())
    (hs : ValidateSource b.source = .ok ())
    (ha : ValidateAdded today b.added b.year = .ok ())
    (hr : ValidateRead b.read b.added = .ok ())
    (hrat : ValidateRating b.rating = .ok ())
    (hnl1 : '\n' ∉ b.name) (hnl2 : '\n' ∉ b.authors) (hnl3 : '\n' ∉ b.genres)
    (hnl4 : '\n' ∉ b.rating)
    (hcr1 : '\r' ∉ b.name) (hcr2 : '\r' ∉ b.authors) (hcr3 : '\r' ∉ b.genres)
    (hcr4 : '\r' ∉ b.rating)
    (hlast : lastOkB b.rating = true) :
    wfFields b = true := by
  have gname : goodFieldB b.name = true :=
    goodFieldB_of
      (fun c hc2 => mainNameCh_no_pipe (matchClass_all (mainValidateName_class hname) c hc2))
      hnl1 hcr1
  have gyear : goodFieldB b.year = true :=
    goodFieldB_of_arith
      (fun c hc2 => digit_good (matchYear_chars (ValidateYear_shape hyear) c hc2))
  have gauth : goodFieldB b.authors = true :=
    goodFieldB_of
      (fun c hc2 => authorsCh_no_pipe (matchClass_all (ValidateAuthors_ok hauth).2 c hc2))
      hnl2 hcr2
  have ggen : goodFieldB b.genres = true :=
    goodFieldB_of
      (fun c hc2 => authorsCh_no_pipe (matchClass_all (ValidateGenres_ok hgen).2 c hc2))
      hnl3 hcr3
  have gw : goodFieldB b.width = true :=
    goodFieldB_of_arith
      (fun c hc2 => decChar_good (decShape_chars (ValidateHeightWidth_shape hw) c hc2))
  have gh : goodFieldB b.height = true :=
    goodFieldB_of_arith
      (fun c hc2 => decChar_good (decShape_chars (ValidateHeightWidth_shape hh) c hc2))
  have gcov : goodFieldB b.cover = true := by
    rcases ValidateCover_shape hc with h1 | h1 <;> rw [h1] <;> decide
  have gsrc : goodFieldB b.source = true := by
    rcases ValidateSource_shape hs with h1 | h1 | h1 <;> rw [h1] <;> decide
  have gadd : goodFieldB b.added = true :=
    goodFieldB_of_arith
      (fun c hc2 => dateChar_good (matchDate_chars (ValidateAdded_shape ha) c hc2))
  have gread : goodFieldB b.read = true := by
    rcases ValidateRead_shape hr with h1 | h1
    · rw [h1]
      decide
    · exact goodFieldB_of_arith
        (fun c hc2 => dateChar_good (matchDate_chars h1 c hc2))
  have grat : goodFieldB b.rating = true := by
    rcases ValidateRating_shape hrat with h1 | h1
    · rw [h1]
      decide
    · exact goodFieldB_of (fun c hc2 => matchRating_chars h1 c hc2) hnl4 hcr4
  simp only [wfFields, Bool.and_eq_true]
  exact ⟨⟨⟨⟨⟨⟨⟨⟨⟨⟨⟨gname, gyear⟩, gauth⟩, ggen⟩, gw⟩, gh⟩, gcov⟩, gsrc⟩, gadd⟩,
    gread⟩, grat⟩, hlast⟩

/- Concrete records used in counterexamples and witnesses. -/

/-- A well-formed record with all fields accepted by the validators
(today taken as 15-06-2025, current year 2025). -/
def bookA : Book :=
  { id := [], name := str "Kniga", authors := str "Ivanov", genres := str "Fantasy",
    year := str "2000", width := str "100", height := str "200",
    cover := str "мягкий", source := str "покупка",
    added := str "01-01-2020", read := [], rating := str "8/10 - Good" }

/- ------------------------------------------------------------------ -/
/- Claim theorems.                                                     -/
/- ------------------------------------------------------------------ -/

/-- C1: the claim says `validateAuthors` normalizes whitespace around commas
into a comma followed by a single space, so that `"Ivanov ,  Petrov"` is
accepted and returns `"Ivanov, Petrov"`.  The code's `normalizeCommas`
replaces each match of `\s*,\s*` with a bare `","` (contradicting its own
comment, which promises `", "`), so the accepted value is `"Ivanov,Petrov"`;
moreover a leading separator survives normalization, so `" ,Ivanov"` is
accepted as `",Ivanov"`, violating "no leading separators" as well. -/
theorem c1_normalizeCommas_bug :
    ValidateAuthors (str "Ivanov ,  Petrov") = .ok (str "Ivanov,Petrov") ∧
    str "Ivanov,Petrov" ≠ str "Ivanov, Petrov" ∧
    ValidateAuthors (str " ,Ivanov") = .ok (str ",Ivanov") := by
  decide

/-- The acceptance condition of `ValidateName` spelled out: no double spaces,
1 to 100 characters of the class, and a UTF-8 byte length between 1 and 100. -/
def specNameAccept (cls : Char → Bool) (s : Str) : Prop :=
  hasInfix s (str "  ") = false ∧ 1 ≤ s.length ∧ s.length ≤ 100 ∧
  (∀ c ∈ s, cls c = true) ∧ 1 ≤ utf8Len s ∧ utf8Len s ≤ 100

theorem mainValidateName_ok_iff (s : Str) :
    mainValidateName s = .ok () ↔ specNameAccept mainNameCh s := by
  unfold mainValidateName specNameAccept
  by_cases h1 : hasInfix s (str "  ") = true
  · rw [if_pos h1]
    simp [h1]
  · have h1f : hasInfix s (str "  ") = false := by simpa using h1
    rw [if_neg h1]
    by_cases h2 : matchClass mainNameCh 1 100 s = true
    · rw [if_neg (by simp [h2])]
      simp only [matchClass, Bool.and_eq_true, decide_eq_true_eq, List.all_eq_true] at h2
      by_cases h3 : (decide (utf8Len s < 1) || decide (utf8Len s > 100)) = true
      · rw [if_pos h3]
        simp only [Bool.or_eq_true, decide_eq_true_eq] at h3
        constructor
        · intro hk
          simp at hk
        · rintro ⟨-, -, -, -, g5, g6⟩
          exfalso
          omega
      · rw [if_neg h3]
        simp only [Bool.or_eq_true, decide_eq_true_eq, not_or, not_lt] at h3
        constructor
        · intro _
          refine ⟨h1f, h2.1.1, h2.1.2, h2.2, ?_, ?_⟩ <;> omega
        · intro _
          rfl
    · rw [if_pos (by simpa using h2)]
      constructor
      · intro hk
        simp at hk
      · rintro ⟨-, g2, g3, g4, -, -⟩
        exfalso
        apply h2
        simp only [matchClass, Bool.and_eq_true, decide_eq_true_eq, List.all_eq_true]
        exact ⟨⟨g2, g3⟩, g4⟩

theorem serverValidateName_ok_iff (s : Str) :
    serverValidateName s = .ok () ↔ specNameAccept serverNameCh s := by
  unfold serverValidateName specNameAccept
  by_cases h1 : hasInfix s (str "  ") = true
  · rw [if_pos h1]
    simp [h1]
  · have h1f : hasInfix s (str "  ") = false := by simpa using h1
    rw [if_neg h1]
    by_cases h2 : matchClass serverNameCh 1 100 s = true
    · rw [if_neg (by simp [h2])]
      simp only [matchClass, Bool.and_eq_true, decide_eq_true_eq, List.all_eq_true] at h2
      by_cases h3 : (decide (utf8Len s < 1) || decide (utf8Len s > 100)) = true
      · rw [if_pos h3]
        simp only [Bool.or_eq_true, decide_eq_true_eq] at h3
        constructor
        · intro hk
          simp at hk
        · rintro ⟨-, -, -, -, g5, g6⟩
          exfalso
          omega
      · rw [if_neg h3]
        simp only [Bool.or_eq_true, decide_eq_true_eq, not_or, not_lt] at h3
        constructor
        · intro _
          refine ⟨h1f, h2.1.1, h2.1.2, h2.2, ?_, ?_⟩ <;> omega
        · intro _
          rfl
    · rw [if_pos (by simpa using h2)]
      constructor
      · intro hk
        simp at hk
      · rintro ⟨-, g2, g3, g4, -, -⟩
        exfalso
        apply h2
        simp only [matchClass, Bool.and_eq_true, decide_eq_true_eq, List.all_eq_true]
        exact ⟨⟨g2, g3⟩, g4⟩

/-- C8 counterexample: the claim says `validateName` rejects every string
containing a comma and accepts every string of 1 to 100 letters.  But
main.go's name pattern contains a comma, so its copy accepts `"a,b"`
(server.go's rejects it); and the length check uses Go's byte length, so a
name of 100 Cyrillic letters (200 bytes) is rejected by both copies even
though it is 100 letter characters with no double spaces. -/
theorem c8_name_validator_counterexample :
    mainValidateName (str "a,b") = .ok () ∧
    serverValidateName (str "a,b") ≠ .ok () ∧
    mainValidateName (List.replicate 100 'я') ≠ .ok () ∧
    serverValidateName (List.replicate 100 'я') ≠ .ok () ∧
    (List.replicate 100 'я').length = 100 ∧
    (∀ c ∈ List.replicate 100 'я', isCyr c = true) ∧
    hasInfix (List.replicate 100 'я') (str "  ") = false := by
  decide

/-- C8 amended: each copy of `validateName` accepts exactly the strings with
no double spaces, whose 1-100 characters all lie in that copy's class (with
the comma in main.go's class but not server.go's), and whose UTF-8 byte
length is between 1 and 100. -/
theorem c8_name_validator_characterization (s : Str) :
    (mainValidateName s = .ok () ↔ specNameAccept mainNameCh s) ∧
    (serverValidateName s = .ok () ↔ specNameAccept serverNameCh s) :=
  ⟨mainValidateName_ok_iff s, serverValidateName_ok_iff s⟩

/- C9: guard-trace lemmas. -/

theorem createBody_events (b : Book) (f : FileState) :
    ∀ e ∈ createBody b f, e = .fread ∨ e = .fwrite := by
  intro e he
  unfold createBody at he
  rcases List.mem_cons.mp he with rfl | he2
  · exact Or.inl rfl
  · cases hg : getNextID f with
    | error _ =>
      rw [hg] at he2
      simp at he2
    | ok n =>
      rw [hg] at he2
      rcases List.mem_cons.mp he2 with rfl | he3
      · exact Or.inl rfl
      · cases hu : isUniqueBook { b with id := intToStr n } f with
        | error _ =>
          rw [hu] at he3
          simp at he3
        | ok bb =>
          rw [hu] at he3
          cases bb
          · simp at he3
          · rw [List.mem_singleton] at he3
            exact Or.inr he3

theorem updateBody_events (b : Book) (f : FileState) :
    ∀ e ∈ updateBody b f, e = .fread ∨ e = .fwrite := by
  intro e he
  unfold updateBody at he
  rcases List.mem_cons.mp he with rfl | he2
  · exact Or.inl rfl
  · cases hr : ReadAll f with
    | error _ =>
      rw [hr] at he2
      simp at he2
    | ok books =>
      rw [hr] at he2
      have he3 : e ∈ (match replaceFirst b books with
        | none => ([] : List Ev)
        | some _ => [Ev.fwrite]) := he2
      cases hrf : replaceFirst b books with
      | none =>
        rw [hrf] at he3
        simp at he3
      | some _ =>
        rw [hrf] at he3
        rw [List.mem_singleton] at he3
        exact Or.inr he3

theorem modifyBody_events (cs : List Book) (u : Bool) (f : FileState) :
    ∀ e ∈ modifyBody cs u f, e = .fread ∨ e = .fwrite := by
  intro e he
  unfold modifyBody at he
  cases f with
  | none => simp at he
  | some lines =>
    rcases List.mem_cons.mp he with rfl | he2
    · exact Or.inl rfl
    · cases hm : modifyAux cs u lines with
      | error _ =>
        rw [hm] at he2
        simp at he2
      | ok p =>
        obtain ⟨fnd, out⟩ := p
        rw [hm] at he2
        cases fnd
        · simp at he2
        · rw [List.mem_singleton] at he2
          exact Or.inr he2

theorem wellBracketed_of_body {body : List Ev} (h : ∀ e ∈ body, e = .fread ∨ e = .fwrite) :
    wellBracketed (.acq :: body ++ [.rel]) := by
  refine ⟨body, rfl, fun hm => ?_, fun hm => ?_⟩ <;>
    rcases h _ hm with h1 | h1 <;> simp at h1

/-- C9 counterexample: server.go's `Create` reads and writes the catalog file
without acquiring any guard (its `fileMutex` is declared but never locked),
refuting the claim that every mutating store operation acquires the shared
token before touching the file. -/
theorem c9_server_create_unguarded :
    Ev.fread ∈ serverCreateTr bookA none ∧
    Ev.fwrite ∈ serverCreateTr bookA none ∧
    Ev.acq ∉ serverCreateTr bookA none ∧
    Ev.rel ∉ serverCreateTr bookA none := by
  decide

/-- C9 amended: in main.go, every mutating store operation (`Create`,
`Update`, `modifyBooksFile`) acquires the capacity-one token first, performs
all its file reads and writes strictly between acquire and release, and
releases on every exit path; server.go's copies of the same operations
perform no guard operation at all. -/
theorem c9_main_guard_discipline :
    (∀ b f, wellBracketed (mainCreateTr b f) ∧
      Ev.acq ∉ serverCreateTr b f ∧ Ev.rel ∉ serverCreateTr b f) ∧
    (∀ b f, wellBracketed (mainUpdateTr b f) ∧
      Ev.acq ∉ serverUpdateTr b f ∧ Ev.rel ∉ serverUpdateTr b f) ∧
    (∀ cs u f, wellBracketed (mainModifyTr cs u f) ∧
      Ev.acq ∉ serverModifyTr cs u f ∧ Ev.rel ∉ serverModifyTr cs u f) := by
  refine ⟨fun b f => ⟨wellBracketed_of_body (createBody_events b f), ?_, ?_⟩,
    fun b f => ⟨wellBracketed_of_body (updateBody_events b f), ?_, ?_⟩,
    fun cs u f => ⟨wellBracketed_of_body (modifyBody_events cs u f), ?_, ?_⟩⟩ <;>
    · intro hm
      first
        | rcases createBody_events b f _ hm with h1 | h1 <;> simp at h1
        | rcases updateBody_events b f _ hm with h1 | h1 <;> simp at h1
        | rcases modifyBody_events cs u f _ hm with h1 | h1 <;> simp at h1

theorem modifyBooksFile_some (cs : List Book) (upd : Bool) (lines : List Str) :
    modifyBooksFile cs upd (some lines) =
      match modifyAux cs upd lines with
      | .error _ => (.parseErr, some lines)
      | .ok (false, _) => (.notFound, some lines)
      | .ok (true, out) => (.done, some out) := rfl

/-- C4 counterexample: the claim says a non-empty line that does not parse
into exactly 12 pipe-delimited fields aborts readAll, search and modify.
But `lineToDict` only rejects fewer than 12 parts, so a 13-field line is
accepted (the 13th field ignored); and an id search short-circuits on its
first exact hit, returning successfully without ever reaching a malformed
later line. -/
theorem c4_extra_fields_counterexample :
    ReadAll (some [str "a|b|c|d|e|f|g|h|i|j|k|l|m"]) =
      .ok [{ id := str "a", name := str "b", year := str "c", authors := str "d",
             genres := str "e", width := str "f", height := str "g",
             cover := str "h", source := str "i", added := str "j",
             read := str "k", rating := str "l" }] ∧
    searchBooks "id" (str "1") (some [str "1|b|c|d|e|f|g|h|i|j|k|l", str "bad"]) =
      .ok [{ id := str "1", name := str "b", year := str "c", authors := str "d",
             genres := str "e", width := str "f", height := str "g",
             cover := str "h", source := str "i", added := str "j",
             read := str "k", rating := str "l" }] := by
  decide

/-- C4 amended: a line (non-empty after trimming, for readAll and search)
that splits into fewer than 12 pipe-delimited fields aborts the entire
readAll and the entire modify with a parse error and no change to the file;
search likewise aborts unless an exact-id short circuit returns before the
bad line is reached; and every line with 12 or more fields is accepted
(fields beyond the 12th ignored), so a read over such a file succeeds. -/
theorem c4_short_line_aborts :
    (∀ lines, (∃ l ∈ lines, trim l ≠ [] ∧ (splitPipe (trim l)).length < 12) →
      ∃ e, ReadAll (some lines) = .error e) ∧
    (∀ (cs : List Book) (upd : Bool) lines,
      (∃ l ∈ lines, (splitPipe (trim (dropCR l))).length < 12) →
      modifyBooksFile cs upd (some lines) = (.parseErr, some lines)) ∧
    (∀ (fld : String) (v : Str) lines,
      (∃ l ∈ lines, trim l ≠ [] ∧ (splitPipe (trim l)).length < 12) →
      (∃ e, searchBooks fld v (some lines) = .error e) ∨
        (fld = "id" ∧ ∃ b, searchBooks fld v (some lines) = .ok [b])) ∧
    (∀ lines, (∀ l ∈ lines, trim l = [] ∨ 12 ≤ (splitPipe (trim l)).length) →
      ∃ bs, ReadAll (some lines) = .ok bs) := by
  refine ⟨?_, ?_, ?_, ?_⟩
  · intro lines h
    exact readLines_error h
  · intro cs upd lines h
    obtain ⟨e, he⟩ := @modifyAux_error cs upd lines h
    rw [modifyBooksFile_some, he]
  · intro fld v lines h
    exact searchAux_result h
  · intro lines h
    exact readLines_ok h

/-- Closed instantiation of `c4_short_line_aborts` at concrete inputs. -/
theorem c4_short_line_aborts_witness :
    (∃ e, ReadAll (some [str "x"]) = .error e) ∧
    modifyBooksFile [] false (some [str "x"]) = (.parseErr, some [str "x"]) ∧
    ((∃ e, searchBooks "name" (str "x") (some [str "x"]) = .error e) ∨
      ("name" = "id" ∧ ∃ b, searchBooks "name" (str "x") (some [str "x"]) = .ok [b])) ∧
    (∃ bs, ReadAll (some [str "a|b|c|d|e|f|g|h|i|j|k|l"]) = .ok bs) :=
  ⟨c4_short_line_aborts.1 [str "x"] ⟨str "x", by decide, by decide, by decide⟩,
   c4_short_line_aborts.2.1 [] false [str "x"] ⟨str "x", by decide, by decide⟩,
   c4_short_line_aborts.2.2.1 "name" (str "x") [str "x"]
     ⟨str "x", by decide, by decide, by decide⟩,
   c4_short_line_aborts.2.2.2 [str "a|b|c|d|e|f|g|h|i|j|k|l"]
     (by decide)⟩

/-- C10 counterexample: the claim says that on every file containing a blank
line, update and delete abort while reads and searches succeed.  Modify does
abort, but if the file also contains a malformed non-blank line the read
fails as well, so the success half of the claim is false as stated. -/
theorem c10_read_also_fails :
    (modifyBooksFile [] false (some [([] : Str), str "x"])).1 = .parseErr ∧
    ReadAll (some [([] : Str), str "x"]) = .error "недостаточно частей в строке" := by
  decide

/-- C10 amended: `modifyBooksFile` parses every raw line without skipping
blanks, so on any file containing a blank line every update-mode and
delete-mode modify aborts with a parse error and leaves the file unchanged;
while readAll and search skip blank lines, so they succeed on the same file
provided its non-blank lines all have at least 12 fields. -/
theorem c10_blank_line_behavior :
    ∀ lines, (∃ l ∈ lines, ∀ c ∈ l, isUniSpace c = true) →
      (∀ (cs : List Book) (upd : Bool),
        modifyBooksFile cs upd (some lines) = (.parseErr, some lines)) ∧
      ((∀ l ∈ lines, trim l = [] ∨ 12 ≤ (splitPipe (trim l)).length) →
        (∃ bs, ReadAll (some lines) = .ok bs) ∧
        ∀ (fld : String) (v : Str), ∃ bs, searchBooks fld v (some lines) = .ok bs) := by
  intro lines ⟨l, hl, hsp⟩
  have hblank : (splitPipe (trim (dropCR l))).length < 12 := by
    have hsp2 : ∀ c ∈ dropCR l, isUniSpace c = true := by
      intro c hc
      apply hsp
      unfold dropCR at hc
      split at hc
      · exact List.dropLast_subset _ hc
      · exact hc
    have ht : trim (dropCR l) = [] := trim_eq_nil_of_all_space hsp2
    rw [ht]
    decide
  constructor
  · intro cs upd
    obtain ⟨e, he⟩ := @modifyAux_error cs upd lines ⟨l, hl, hblank⟩
    rw [modifyBooksFile_some, he]
  · intro hwf
    exact ⟨readLines_ok hwf, fun fld v => searchAux_ok hwf⟩

/-- Closed instantiation of `c10_blank_line_behavior` at a concrete file. -/
theorem c10_blank_line_behavior_witness :
    modifyBooksFile [] false (some [([] : Str), str "a|b|c|d|e|f|g|h|i|j|k|l"]) =
      (.parseErr, some [([] : Str), str "a|b|c|d|e|f|g|h|i|j|k|l"]) ∧
    (∃ bs, ReadAll (some [([] : Str), str "a|b|c|d|e|f|g|h|i|j|k|l"]) = .ok bs) :=
  ⟨(c10_blank_line_behavior [([] : Str), str "a|b|c|d|e|f|g|h|i|j|k|l"]
      ⟨[], by decide, by decide⟩).1 [] false,
   ((c10_blank_line_behavior [([] : Str), str "a|b|c|d|e|f|g|h|i|j|k|l"]
      ⟨[], by decide, by decide⟩).2 (by decide)).1⟩

theorem Create_eq (b : Book) (f : FileState) :
    Create b f =
      match getNextID f with
      | .error _ => (.idErr, f)
      | .ok n =>
        match isUniqueBook { b with id := intToStr n } f with
        | .error _ => (.uniqueErr, f)
        | .ok false => (.dup, f)
        | .ok true => (.created n, appendBookToFile { b with id := intToStr n } f) := rfl

theorem bookLine_ne_nil (b : Book) : bookLine b ≠ [] := by
  rw [bookLine_decomp b]
  simp

theorem readLines_single_wf {b : Book} (h : wfBook b = true) :
    readLines [bookLine b] = .ok [b] := by
  have ht : trim (bookLine b) ≠ [] := by
    rw [trim_bookLine h]
    exact bookLine_ne_nil b
  rw [readLines_cons_ok ht (lineToDict_bookLine h)]
  rfl

/-- C7: after a successful create of a well-formed record, a second create
with the same (name, authors) pair is rejected as a duplicate and the table
is left exactly as after the first create. -/
theorem c7_duplicate_create_rejected {b1 b2 : Book} {f f1 : FileState} {n : Int}
    (hwf : wfFields b1 = true)
    (hcr : Create b1 f = (.created n, f1))
    (hname : b2.name = b1.name) (hauth : b2.authors = b1.authors) :
    Create b2 f1 = (.dup, f1) := by
  obtain ⟨hg, hu, hf⟩ := Create_created_inv hcr
  have hwf2 : wfBook { b1 with id := intToStr n } = true := wfBook_setId hwf n
  have hf1 : f1 = some (f.getD [] ++ [bookLine { b1 with id := intToStr n }]) := by
    rw [hf, appendBook_wf hwf2]
  have hgn : getNextID f1 = .ok (n + 1) := by
    rw [hf1, getNextID_append_last hwf2]
    rw [show ({ b1 with id := intToStr n } : Book).id = intToStr n from rfl,
      goAtoi_intToStr]
  have hforall : ∀ l ∈ f.getD [], trim l = [] ∨ ∃ bk, lineToDict l = .ok bk ∧
      ¬(bk.name = ({ b2 with id := intToStr (n + 1) } : Book).name ∧
        bk.authors = ({ b2 with id := intToStr (n + 1) } : Book).authors) := by
    cases f with
    | none => simp
    | some lines =>
      intro l hl
      have hu2 : isUniqueAux { b1 with id := intToStr n } lines = .ok true := hu
      rcases isUniqueAux_forall hu2 l hl with hb | ⟨bk, hd, hm⟩
      · exact Or.inl hb
      · refine Or.inr ⟨bk, hd, fun hmm => hm ?_⟩
        exact ⟨by rw [← hname]; exact hmm.1, by rw [← hauth]; exact hmm.2⟩
  have huniq : isUniqueBook { b2 with id := intToStr (n + 1) } f1 = .ok false := by
    rw [hf1]
    show isUniqueAux { b2 with id := intToStr (n + 1) }
      (f.getD [] ++ [bookLine { b1 with id := intToStr n }]) = .ok false
    refine isUniqueAux_false hforall ?_ (lineToDict_bookLine hwf2) ⟨hname.symm, hauth.symm⟩
    rw [trim_bookLine hwf2]
    exact bookLine_ne_nil _
  rw [Create_eq, hgn]
  show (match isUniqueBook { b2 with id := intToStr (n + 1) } f1 with
    | .error _ => ((.uniqueErr : CreateRes), f1)
    | .ok false => (.dup, f1)
    | .ok true => (.created (n + 1), appendBookToFile { b2 with id := intToStr (n + 1) } f1)) =
    (.dup, f1)
  rw [huniq]

/-- Closed instantiation of `c7_duplicate_create_rejected`: creating a record
with the same name and authors as `bookA` right after creating `bookA` is
rejected and the file is unchanged. -/
theorem c7_duplicate_create_rejected_witness :
    Create { bookA with genres := str "X" } (Create bookA none).2 =
      (.dup, (Create bookA none).2) :=
  @c7_duplicate_create_rejected bookA { bookA with genres := str "X" } none
    (Create bookA none).2 1 (by decide) (by decide) rfl rfl

/-- A second valid record with a different name (same fields otherwise). -/
def bookB : Book := { bookA with name := str "Other" }

/-- The (name, authors) uniqueness invariant of the persisted table. -/
def pairsInvariant (f : FileState) : Prop :=
  ∀ books, ReadAll f = .ok books → noDupPairs books = true

/-- C3 counterexample: `Update` never re-checks (name, authors) uniqueness,
so updating an existing record's name to match another record produces a
table with a duplicated pair, refuting the claim that every store operation
preserves the invariant. -/
theorem c3_update_breaks_uniqueness :
    ReadAll (Create bookB (Create bookA none).2).2 =
      .ok [{ bookA with id := str "1" }, { bookB with id := str "2" }] ∧
    noDupPairs [{ bookA with id := str "1" }, { bookB with id := str "2" }] = true ∧
    (Update { bookA with id := str "2" } (Create bookB (Create bookA none).2).2).1 =
      .updated ∧
    ReadAll (Update { bookA with id := str "2" }
        (Create bookB (Create bookA none).2).2).2 =
      .ok [{ bookA with id := str "1" }, { bookA with id := str "2" }] ∧
    noDupPairs [{ bookA with id := str "1" }, { bookA with id := str "2" }] = false := by
  decide

/-- C3 amended: `Create` does preserve the (name, authors) uniqueness
invariant for well-formed records — its `isUniqueBook` scan rejects any
duplicate before the append — while `Update` and `modifyBooksFile` perform no
uniqueness check and can break it. -/
theorem c3_create_preserves_uniqueness {b : Book} {f f2 : FileState} {r : CreateRes}
    (hwf : wfFields b = true) (hinv : pairsInvariant f) (hc : Create b f = (r, f2)) :
    pairsInvariant f2 := by
  rw [Create_eq] at hc
  cases hg : getNextID f with
  | error e =>
    rw [hg] at hc
    simp only [Prod.mk.injEq] at hc
    rw [← hc.2]
    exact hinv
  | ok n =>
    rw [hg] at hc
    have hc2 : (match isUniqueBook { b with id := intToStr n } f with
      | .error _ => ((.uniqueErr : CreateRes), f)
      | .ok false => (.dup, f)
      | .ok true => (.created n, appendBookToFile { b with id := intToStr n } f)) =
      (r, f2) := hc
    clear hc
    cases hu : isUniqueBook { b with id := intToStr n } f with
    | error e =>
      rw [hu] at hc2
      simp only [Prod.mk.injEq] at hc2
      rw [← hc2.2]
      exact hinv
    | ok bb =>
      rw [hu] at hc2
      cases bb
      · simp only [Prod.mk.injEq] at hc2
        rw [← hc2.2]
        exact hinv
      · simp only [Prod.mk.injEq] at hc2
        have hwf2 : wfBook { b with id := intToStr n } = true := wfBook_setId hwf n
        rw [← hc2.2, appendBook_wf hwf2]
        intro books hread
        cases f with
        | none =>
          have hread2 : readLines [bookLine { b with id := intToStr n }] = .ok books := hread
          rw [readLines_single_wf hwf2] at hread2
          simp only [Except.ok.injEq] at hread2
          subst hread2
          simp [noDupPairs]
        | some lines =>
          have hread2 : readLines (lines ++ [bookLine { b with id := intToStr n }]) =
              .ok books := hread
          rw [readLines_append] at hread2
          cases hr1 : readLines lines with
          | error e =>
            rw [hr1] at hread2
            simp at hread2
          | ok bs =>
            rw [hr1, readLines_single_wf hwf2] at hread2
            simp only [Except.ok.injEq] at hread2
            subst hread2
            apply noDupPairs_append_single (hinv bs hr1)
            intro x hx
            obtain ⟨l, hl, ht, hd⟩ := readLines_mem hr1 x hx
            have hu2 : isUniqueAux { b with id := intToStr n } lines = .ok true := hu
            rcases isUniqueAux_forall hu2 l hl with hb | ⟨bk, hd2, hm⟩
            · exact absurd hb ht
            · rw [hd] at hd2
              simp only [Except.ok.injEq] at hd2
              subst hd2
              exact hm

/-- Closed instantiation of `c3_create_preserves_uniqueness` at a concrete
create on the empty (absent) table. -/
theorem c3_create_preserves_uniqueness_witness :
    pairsInvariant (Create bookA none).2 :=
  @c3_create_preserves_uniqueness bookA none (Create bookA none).2 (.created 1)
    (by decide)
    (by
      intro books h
      have h0 : ReadAll none = .ok [] := rfl
      rw [h0] at h
      simp only [Except.ok.injEq] at h
      subst h
      rfl)
    (by decide)

theorem filter_ne_length {i : Str} : ∀ (lines : List Str),
    (lines.map lineId).Nodup → (∃ l ∈ lines, lineId l = i) →
    (lines.filter fun l => !decide (lineId l = i)).length = lines.length - 1 := by
  intro lines
  induction lines with
  | nil => simp
  | cons l rest ih =>
    intro hnd hex
    rw [List.map_cons, List.nodup_cons] at hnd
    by_cases hli : lineId l = i
    · rw [List.filter_cons, if_neg (by simp [hli])]
      have hrest : ∀ x ∈ rest, lineId x ≠ i := by
        intro x hx he
        apply hnd.1
        rw [hli, ← he]
        exact List.mem_map_of_mem _ hx
      have : rest.filter (fun l => !decide (lineId l = i)) = rest := by
        rw [List.filter_eq_self]
        intro a ha
        simp [hrest a ha]
      rw [this]
      simp
    · rw [List.filter_cons, if_pos (by simp [hli])]
      have hex2 : ∃ x ∈ rest, lineId x = i := by
        rcases hex with ⟨x, hx, hxi⟩
        rcases List.mem_cons.mp hx with rfl | hm
        · exact absurd hxi hli
        · exact ⟨x, hm, hxi⟩
      have hlen : 1 ≤ rest.length := by
        rcases hex2 with ⟨x, hx, -⟩
        exact List.length_pos.mpr (List.ne_nil_of_mem hx)
      rw [List.length_cons, ih hnd.2 hex2, List.length_cons]
      omega

/-- C5: delete-mode modify on a fully parseable table: if no candidate id
occurs, the file is left identical and not-found is reported; if one does,
the result drops exactly the matching lines and keeps every other line
verbatim in order; and with a single present target id and no duplicate ids,
the table shrinks by exactly one record. -/
theorem c5_delete_frame {cs : List Book} {lines : List Str}
    (hparse : ∀ l ∈ lines, dropCR l = l ∧ ∃ bk, lineToDict l = .ok bk) :
    ((∀ l ∈ lines, (lookupLast cs (lineId l)).isSome = false) →
      modifyBooksFile cs false (some lines) = (.notFound, some lines)) ∧
    ((∃ l ∈ lines, (lookupLast cs (lineId l)).isSome = true) →
      modifyBooksFile cs false (some lines) =
        (.done, some (lines.filter fun l => !(lookupLast cs (lineId l)).isSome))) ∧
    (∀ i : Str, (lines.map lineId).Nodup →
      (∃ l ∈ lines, lineId l = i) →
      cs ≠ [] → (∀ c ∈ cs, c.id = i) →
      (lines.filter fun l => !(lookupLast cs (lineId l)).isSome).length =
        lines.length - 1) := by
  refine ⟨?_, ?_, ?_⟩
  · intro hnone
    have hany : (lines.any fun l => (lookupLast cs (lineId l)).isSome) = false := by
      rw [List.any_eq_false]
      intro l hl
      simp [hnone l hl]
    rw [modifyBooksFile_some, modifyAux_delete hparse, hany]
  · intro hsome
    have hany : (lines.any fun l => (lookupLast cs (lineId l)).isSome) = true := by
      rw [List.any_eq_true]
      rcases hsome with ⟨l, hl, hs⟩
      exact ⟨l, hl, hs⟩
    rw [modifyBooksFile_some, modifyAux_delete hparse, hany]
  · intro i hnd hex hcsne hcs
    have hpred : ∀ x ∈ lines, (!(lookupLast cs (lineId x)).isSome) =
        (!decide (lineId x = i)) := by
      intro x hx
      congr 1
      by_cases hxi : lineId x = i
      · rcases List.exists_mem_of_ne_nil cs hcsne with ⟨c, hc⟩
        rw [lookupLast_isSome.mpr ⟨c, hc, by rw [hcs c hc, hxi]⟩]
        simp [hxi]
      · have : ¬∃ c ∈ cs, c.id = lineId x := by
          rintro ⟨c, hc, he⟩
          exact hxi (by rw [← he, hcs c hc])
        have hfalse : (lookupLast cs (lineId x)).isSome = false := by
          rw [Bool.eq_false_iff]
          intro hs
          exact this (lookupLast_isSome.mp hs)
        rw [hfalse]
        simp [hxi]
    rw [List.filter_congr hpred]
    exact filter_ne_length lines hnd hex

/-- Closed instantiation of `c5_delete_frame`: deleting an absent id leaves
the one-record table identical with a not-found result, and deleting the
present id empties it. -/
theorem c5_delete_frame_witness :
    modifyBooksFile [{ bookA with id := str "9" }] false (Create bookA none).2 =
      (.notFound, (Create bookA none).2) ∧
    modifyBooksFile [{ bookA with id := str "1" }] false (Create bookA none).2 =
      (.done, some []) := by
  have hparse : ∀ l ∈ [bookLine { bookA with id := str "1" }],
      dropCR l = l ∧ ∃ bk, lineToDict l = .ok bk := by
    intro l hl
    rw [List.mem_singleton] at hl
    subst hl
    exact ⟨by decide, { bookA with id := str "1" }, by decide⟩
  have hfile : (Create bookA none).2 = some [bookLine { bookA with id := str "1" }] := by
    decide
  constructor
  · rw [hfile]
    exact (@c5_delete_frame [{ bookA with id := str "9" }]
      [bookLine { bookA with id := str "1" }] hparse).1 (by decide)
  · rw [hfile]
    have h2 := (@c5_delete_frame [{ bookA with id := str "1" }]
      [bookLine { bookA with id := str "1" }] hparse).2.1 (by decide)
    rw [h2]
    decide

theorem getNextID_some_eq (lines : List Str) :
    getNextID (some lines) =
      if lastNonBlankAux [] lines = [] then .ok 1
      else
        match lineToDict (lastNonBlankAux [] lines) with
        | .error e => .error e
        | .ok bk =>
          match goAtoi bk.id with
          | none => .error "неверный формат ID"
          | some id => .ok (id + 1) := rfl

/-- C2: `getNextID` returns 1 on an absent or blank file and otherwise one
more than the parsed id of the last non-empty line; and after a create
assigned id n, deleting records whose ids differ from n leaves the next
assigned id equal to n + 1 (ids are monotonic, never reassigned while the
newest record remains). -/
theorem c2_nextId_monotonic :
    (getNextID none = .ok 1) ∧
    (∀ lines, (∀ l ∈ lines, trim l = []) → getNextID (some lines) = .ok 1) ∧
    (∀ lines l bk id,
      ((lines.map trim).filter (fun t => !t.isEmpty)).getLast? = some l →
      lineToDict l = .ok bk → goAtoi bk.id = some id →
      getNextID (some lines) = .ok (id + 1)) ∧
    (∀ (b1 b2 : Book) (cs : List Book) (f f1 f2 : FileState) (n : Int) (r : ModRes),
      wfFields b1 = true →
      Create b1 f = (.created n, f1) →
      (∀ c ∈ cs, c.id ≠ intToStr n) →
      modifyBooksFile cs false f1 = (r, f2) →
      getNextID f2 = .ok (n + 1) ∧
      (∀ (m : Int) (f3 : FileState), Create b2 f2 = (.created m, f3) → m = n + 1)) := by
  refine ⟨rfl, ?_, ?_, ?_⟩
  · intro lines hall
    have hfilter : (lines.map trim).filter (fun t => !t.isEmpty) = [] := by
      rw [List.filter_eq_nil_iff]
      intro a ha
      rw [List.mem_map] at ha
      obtain ⟨x, hx, rfl⟩ := ha
      simp [hall x hx]
    have hlast : lastNonBlankAux [] lines = [] := by
      rw [lastNonBlankAux_spec, hfilter]
      rfl
    rw [getNextID_some_eq, if_pos hlast]
  · intro lines l bk id hgl hd hat
    have hlast : lastNonBlankAux [] lines = l := by
      rw [lastNonBlankAux_spec, hgl]
      rfl
    have hmem : l ∈ (lines.map trim).filter (fun t => !t.isEmpty) :=
      List.mem_of_mem_getLast? hgl
    have hne : l ≠ [] := by
      have h2 := (List.mem_filter.mp hmem).2
      intro he
      rw [he] at h2
      simp at h2
    rw [getNextID_some_eq, if_neg (by rw [hlast]; exact hne), hlast, hd]
    show (match goAtoi bk.id with
      | none => (.error "неверный формат ID" : Except String Int)
      | some id2 => .ok (id2 + 1)) = .ok (id + 1)
    rw [hat]
  · intro b1 b2 cs f f1 f2 n r hwf hcr hcs hmod
    obtain ⟨hg, hu, hf⟩ := Create_created_inv hcr
    have hwf2 : wfBook { b1 with id := intToStr n } = true := wfBook_setId hwf n
    have hf1 : f1 = some (f.getD [] ++ [bookLine { b1 with id := intToStr n }]) := by
      rw [hf, appendBook_wf hwf2]
    have hnextL : ∀ L0 : List Str,
        getNextID (some (L0 ++ [bookLine { b1 with id := intToStr n }])) = .ok (n + 1) := by
      intro L0
      rw [getNextID_append_last hwf2]
      show (match goAtoi (intToStr n) with
        | none => (.error "неверный формат ID" : Except String Int)
        | some id => .ok (id + 1)) = .ok (n + 1)
      rw [goAtoi_intToStr]
    have hnext : getNextID f2 = .ok (n + 1) := by
      rw [hf1, modifyBooksFile_some] at hmod
      cases hma : modifyAux cs false
          (f.getD [] ++ [bookLine { b1 with id := intToStr n }]) with
      | error e =>
        rw [hma] at hmod
        simp only [Prod.mk.injEq] at hmod
        rw [← hmod.2]
        exact hnextL _
      | ok p =>
        obtain ⟨fnd, out⟩ := p
        rw [hma] at hmod
        cases fnd
        · simp only [Prod.mk.injEq] at hmod
          rw [← hmod.2]
          exact hnextL _
        · simp only [Prod.mk.injEq] at hmod
          have hout := modifyAux_delete_ok hma
          have hpl : (!(lookupLast cs
              (lineIdCR (bookLine { b1 with id := intToStr n }))).isSome) = true := by
            have hidcr : lineIdCR (bookLine { b1 with id := intToStr n }) = intToStr n := by
              unfold lineIdCR
              rw [dropCR_bookLine hwf2, lineToDict_bookLine hwf2]
            rw [hidcr, lookupLast_none hcs]
            rfl
          rw [List.filter_append, List.map_append] at hout
          have hfl : List.filter (fun l => !(lookupLast cs (lineIdCR l)).isSome)
              [bookLine { b1 with id := intToStr n }] =
              [bookLine { b1 with id := intToStr n }] := by
            rw [List.filter_singleton]
            rw [hpl]
            rfl
          rw [hfl] at hout
          have hmap : List.map dropCR [bookLine { b1 with id := intToStr n }] =
              [bookLine { b1 with id := intToStr n }] := by
            rw [List.map_singleton, dropCR_bookLine hwf2]
          rw [hmap] at hout
          rw [← hmod.2, hout]
          exact hnextL _
    refine ⟨hnext, ?_⟩
    intro m f3 hc2
    obtain ⟨hg2, -, -⟩ := Create_created_inv hc2
    rw [hnext] at hg2
    simp only [Except.ok.injEq] at hg2
    omega

/-- Closed instantiation of `c2_nextId_monotonic`: after creating `bookA`
(id 1) and running a delete for the absent id 9, the next id is still 2, and
a subsequent successful create assigns exactly id 2. -/
theorem c2_nextId_monotonic_witness :
    getNextID (modifyBooksFile [{ bookA with id := str "9" }] false
      (Create bookA none).2).2 = .ok 2 :=
  (c2_nextId_monotonic.2.2.2 bookA bookB [{ bookA with id := str "9" }] none
    (Create bookA none).2
    (modifyBooksFile [{ bookA with id := str "9" }] false (Create bookA none).2).2
    1
    (modifyBooksFile [{ bookA with id := str "9" }] false (Create bookA none).2).1
    (by decide) (by decide) (by decide) rfl).1

def bookTrail : Book := { bookA with rating := str "8/10 - Good " }

def bookNL : Book := { bookA with name := str "a\nb" }

/-- C6 counterexample: the validators are not enough for a faithful
round-trip. A rating with a trailing space passes ValidateRating, is
stored verbatim, but comes back trimmed (a different string); and a name
containing a newline passes main.go's validateName, yet after Create the
file holds two short lines and every subsequent read fails. -/
theorem c6_roundtrip_counterexample :
    (mainValidateName bookTrail.name = .ok () ∧
     ValidateAuthors bookTrail.authors = .ok bookTrail.authors ∧
     ValidateGenres bookTrail.genres = .ok bookTrail.genres ∧
     ValidateYear 2025 bookTrail.year = .ok () ∧
     ValidateHeightWidth bookTrail.width "width" = .ok () ∧
     ValidateHeightWidth bookTrail.height "height" = .ok () ∧
     ValidateCover bookTrail.cover = .ok () ∧
     ValidateSource bookTrail.source = .ok () ∧
     ValidateAdded ⟨2025, 6, 15⟩ bookTrail.added bookTrail.year = .ok () ∧
     ValidateRead bookTrail.read bookTrail.added = .ok () ∧
     ValidateRating bookTrail.rating = .ok ()) ∧
    ((Create bookTrail none).1 = .created 1 ∧
     ReadAll (Create bookTrail none).2 =
       .ok [{ bookA with id := str "1", rating := str "8/10 - Good" }] ∧
     ({ bookA with id := str "1", rating := str "8/10 - Good" } : Book) ≠
       { bookTrail with id := str "1" }) ∧
    (mainValidateName bookNL.name = .ok () ∧
     (Create bookNL none).1 = .created 1 ∧
     ReadAll (Create bookNL none).2 = .error "недостаточно частей в строке") := by
  decide

/-- C6 (amended): for a record whose every field passes its validator and
that additionally contains no newline or carriage return in its free-text
fields, whose rating does not end in whitespace, creating it into an absent
file stores exactly one line and reading it back returns exactly the stored
record with id "1". -/
theorem c6_roundtrip {b : Book} {today : GoDate} {curYear : Int}
    (hname : mainValidateName b.name = .ok ())
    (hauth : ValidateAuthors b.authors = .ok b.authors)
    (hgen : ValidateGenres b.genres = .ok b.genres)
    (hyear : ValidateYear curYear b.year = .ok ())
    (hw : ValidateHeightWidth b.width "width" = .ok ())
    (hh : ValidateHeightWidth b.height "height" = .ok ())
    (hc : ValidateCover b.cover = .ok ())
    (hs : ValidateSource b.source = .ok ())
    (ha : ValidateAdded today b.added b.year = .ok ())
    (hr : ValidateRead b.read b.added = .ok ())
    (hrat : ValidateRating b.rating = .ok ())
    (hnl1 : '\n' ∉ b.name) (hnl2 : '\n' ∉ b.authors) (hnl3 : '\n' ∉ b.genres)
    (hnl4 : '\n' ∉ b.rating)
    (hcr1 : '\r' ∉ b.name) (hcr2 : '\r' ∉ b.authors) (hcr3 : '\r' ∉ b.genres)
    (hcr4 : '\r' ∉ b.rating)
    (hlast : lastOkB b.rating = true) :
    Create b none = (.created 1, some [bookLine { b with id := str "1" }]) ∧
    ReadAll (Create b none).2 = .ok [{ b with id := str "1" }] := by
  have hwfF : wfFields b = true :=
    wfFields_of_validators hname hauth hgen hyear hw hh hc hs ha hr hrat
      hnl1 hnl2 hnl3 hnl4 hcr1 hcr2 hcr3 hcr4 hlast
  have hwf2 : wfBook { b with id := intToStr 1 } = true := wfBook_setId hwfF 1
  have hid1 : intToStr (1 : Int) = str "1" := by decide
  have hcrB : Create b none =
      (.created 1, some (goLinesOf (bookLine { b with id := intToStr 1 }))) := rfl
  have hwf3 : wfBook { b with id := str "1" } = true := hid1 ▸ hwf2
  have hcrB2 : Create b none = (.created 1, some [bookLine { b with id := str "1" }]) := by
    rw [hcrB, goLinesOf_bookLine hwf2, hid1]
  refine ⟨hcrB2, ?_⟩
  rw [hcrB2]
  show readLines [bookLine { b with id := str "1" }] = .ok [{ b with id := str "1" }]
  exact readLines_single_wf hwf3

/-- Closed instantiation of `c6_roundtrip` at the concrete record `bookA`:
creating it into an absent file and reading back returns exactly the record
with id "1". -/
theorem c6_roundtrip_witness :
    Create bookA none = (.created 1, some [bookLine { bookA with id := str "1" }]) ∧
    ReadAll (Create bookA none).2 = .ok [{ bookA with id := str "1" }] :=
  @c6_roundtrip bookA ⟨2025, 6, 15⟩ 2025 (by decide) (by decide) (by decide)
    (by decide) (by decide) (by decide) (by decide) (by decide) (by decide)
    (by decide) (by decide) (by decide) (by decide) (by decide) (by decide)
    (by decide) (by decide) (by decide) (by decide) (by decide)
